import Mathlib

/-!
# Verification of `autogpt/commands/file_operations.py`

A shallow embedding of the file-operations module of the repository:
the path guard (`safe_join` built on `os.path.join`, `os.path.normpath`
and `os.path.commonprefix`), the text chunker (`split_file`), and the
file-store operations (`read_file`, `write_to_file`, `append_to_file`,
`delete_file`, `search_files`) together with the operation log
(`check_duplicate_operation`, `log_operation`).

Paths are POSIX strings.  The filesystem is modelled as an explicit
state (an association list of file paths to contents plus a list of
existing directories); Python exceptions are modelled with an explicit
error type, and the CPython recursion limit is modelled by a `fuel`
argument on the mutually recursive pair `log_operation` /
`append_to_file` (entering a call with no fuel left raises the
recursion-depth error, which `except Exception` blocks catch like any
other exception).  The working directory `Path(os.getcwd()) /
"auto_gpt_workspace"` is modelled with the process cwd at `/`.
-/

set_option maxRecDepth 8000

deriving instance DecidableEq for Except

namespace FileOps

/-! ## Python path primitives (posixpath) -/

/-- `s.startswith(p)` for Python strings. -/
def startsW (s p : String) : Bool :=
  p.data.isPrefixOf s.data

/-- `s.endswith(p)` for Python strings. -/
def endsW (s p : String) : Bool :=
  p.data.reverse.isPrefixOf s.data.reverse

/-- One step of `os.path.join` on POSIX: `join(path, b)`. -/
def joinOne (path b : String) : String :=
  if startsW b "/" then b
  else if path = "" ∨ endsW path "/" then path ++ b
  else path ++ "/" ++ b

/-- `os.path.join(a, *ps)` on POSIX. -/
def osJoin (a : String) (ps : List String) : String :=
  ps.foldl joinOne a

/-- `str.split('/')` on the character list of a Python string. -/
def splitC : List Char → List (List Char)
  | [] => [[]]
  | a :: rest =>
    match splitC rest with
    | [] => []
    | h :: t => if a = '/' then [] :: h :: t else (a :: h) :: t

/-- `'/'.join(comps)` on character lists. -/
def icC : List (List Char) → List Char
  | [] => []
  | [c] => c
  | c :: rest => c ++ '/' :: icC rest

/-- The component loop of `posixpath.normpath`: processes components
left to right, skipping `''` and `'.'`, resolving `'..'`.
The accumulator holds already-emitted components in reverse order. -/
def normLoop (initialSlashes : Nat) : List (List Char) → List (List Char) → List (List Char)
  | revAcc, [] => revAcc.reverse
  | revAcc, comp :: rest =>
    if comp = [] ∨ comp = ['.'] then normLoop initialSlashes revAcc rest
    else if comp ≠ ['.', '.'] ∨ (initialSlashes = 0 ∧ revAcc = [])
            ∨ revAcc.head? = some ['.', '.'] then
      normLoop initialSlashes (comp :: revAcc) rest
    else
      match revAcc with
      | [] => normLoop initialSlashes [] rest
      | _ :: t => normLoop initialSlashes t rest

/-- `posixpath.normpath` on character lists. -/
def normC (p : List Char) : List Char :=
  if p = [] then ['.']
  else
    let initialSlashes : Nat :=
      if p.take 1 = ['/'] then
        if p.take 2 = ['/', '/'] ∧ p.take 3 ≠ ['/', '/', '/'] then 2 else 1
      else 0
    let comps := normLoop initialSlashes [] (splitC p)
    let body := icC comps
    let out := List.replicate initialSlashes '/' ++ body
    if out = [] then ['.'] else out

/-- `os.path.normpath` on POSIX. -/
def normpath (p : String) : String :=
  String.mk (normC p.data)

/-- Longest common prefix of two lists (the behaviour of
`os.path.commonprefix` on a two-element list, element-wise). -/
def commonPrefixC {α : Type} [DecidableEq α] : List α → List α → List α
  | a :: as, b :: bs => if a = b then a :: commonPrefixC as bs else []
  | _, _ => []

/-- `os.path.commonprefix([s, t])` for two strings. -/
def commonPrefix2 (s t : String) : String :=
  String.mk (commonPrefixC s.data t.data)

/-- The `ValueError` message raised by `safe_join`. -/
def escapeMsg : String := "Attempted to access outside of working directory."

/-- `safe_join(base, *paths)`: when the working-directory restriction is
enabled, normalize the join of `base` and the segments and raise
`ValueError` unless the character-wise common prefix of the result and
`base` is exactly `base`; when disabled, join the segments onto the
filesystem root `"/"` instead.  The raised `ValueError` is modelled as
`Except.error` carrying `str(e)`. -/
def safe_join (restricted : Bool) (base : String) (paths : List String) :
    Except String String :=
  if restricted then
    let new_path := normpath (osJoin base paths)
    if commonPrefix2 base new_path ≠ base then .error escapeMsg
    else .ok new_path
  else
    .ok (normpath (osJoin "/" paths))

/-- A path `p` lies inside the root `r` (as normalized POSIX paths):
it is the root itself or strictly below it. -/
def insideRoot (r p : String) : Prop :=
  p = r ∨ (r ++ "/").data <+: p.data

instance (r p : String) : Decidable (insideRoot r p) := by
  unfold insideRoot; infer_instance

theorem commonPrefixC_eq_left_iff {α : Type} [DecidableEq α] :
    ∀ (s t : List α), commonPrefixC s t = s ↔ s <+: t
  | [], t => by cases t <;> simp [commonPrefixC]
  | a :: as, [] => by
    constructor
    · intro h; simp [commonPrefixC] at h
    · intro h; exact absurd (List.IsPrefix.length_le h) (by simp)
  | a :: as, b :: bs => by
    by_cases hab : a = b
    · subst hab
      have ih := commonPrefixC_eq_left_iff as bs
      simp [commonPrefixC, List.cons_prefix_cons, ih]
    · constructor
      · intro h; simp [commonPrefixC, hab] at h
      · intro h
        rcases h with ⟨u, hu⟩
        injection hu with h1 _
        exact absurd h1 hab

theorem commonPrefix2_eq_left_iff (s t : String) :
    commonPrefix2 s t = s ↔ s.data <+: t.data := by
  unfold commonPrefix2
  rw [← commonPrefixC_eq_left_iff s.data t.data]
  constructor
  · intro h
    have := congrArg String.data h
    simpa using this
  · intro h
    conv_rhs => rw [show s = String.mk s.data from rfl]
    exact congrArg String.mk h

/-! ## Module constants

`WORKING_DIRECTORY = Path(os.getcwd()) / "auto_gpt_workspace"`, with the
process working directory modelled at the filesystem root `/`.  The
directory is created at import time, so every initial filesystem state
in the theorems below has it present. -/

def WORKING_DIRECTORY : String := "/auto_gpt_workspace"

def LOG_FILE : String := "file_logger.txt"

def LOG_FILE_PATH : String := WORKING_DIRECTORY ++ "/" ++ LOG_FILE

/-- C1, counterexample.  The claim says the `commonprefix` test rejects
every resolution via `..` that lands outside the root.  It does not:
`os.path.commonprefix` is a character-wise prefix, so a `..` segment
resolving into a sibling directory whose name extends the base passes
the test even though the result is outside the working directory. -/
theorem C1_counterexample :
    safe_join true WORKING_DIRECTORY ["../auto_gpt_workspace2/secret"]
        = .ok "/auto_gpt_workspace2/secret"
      ∧ ¬ insideRoot WORKING_DIRECTORY "/auto_gpt_workspace2/secret" := by
  decide

/-- C1, amended.  With restriction enabled, `safe_join base paths`
returns the normalized `os.path.join` of `base` and the segments, and
raises the path-escape `ValueError` exactly when `base` is not a
character-wise prefix of the normalized result (which accepts some
paths outside the root, namely those in sibling directories whose name
extends `base`); with restriction disabled, it resolves the segments
against the filesystem root `/` instead of `base`. -/
theorem C1_safe_join_amended (base : String) (paths : List String) :
    (safe_join true base paths =
      if base.data <+: (normpath (osJoin base paths)).data
      then .ok (normpath (osJoin base paths))
      else .error escapeMsg)
    ∧ safe_join false base paths = .ok (normpath (osJoin "/" paths)) := by
  constructor
  · unfold safe_join
    by_cases h : base.data <+: (normpath (osJoin base paths)).data
    · rw [if_pos h]
      have hc : commonPrefix2 base (normpath (osJoin base paths)) = base :=
        (commonPrefix2_eq_left_iff _ _).mpr h
      simp [hc]
    · rw [if_neg h]
      have hc : commonPrefix2 base (normpath (osJoin base paths)) ≠ base := by
        intro he
        exact h ((commonPrefix2_eq_left_iff _ _).mp he)
      simp [hc]
  · rfl

/-! ## `split_file` (the chunker) -/

/-- The generator loop of `split_file`, over the character list of the
content.  Each iteration at offset `start < len` yields
`content[start : start+max_length+overlap]` when that right end is
strictly below the content length, else `content[start : len]`, then
advances `start` by `max_length - overlap`.  `fuel` bounds the number
of iterations; `none` means the loop did not finish within `fuel`
iterations (Python would still be looping). -/
def sfAux (c : List Char) (maxLength overlap : Nat) : Nat → Nat → Option (List (List Char))
  | 0, _ => none
  | fuel + 1, start =>
    if start < c.length then
      let chunk :=
        if start + maxLength + overlap < c.length
        then (c.drop start).take (maxLength + overlap)
        else c.drop start
      match sfAux c maxLength overlap fuel (start + (maxLength - overlap)) with
      | none => none
      | some rest => some (chunk :: rest)
    else some []

/-- `split_file(content, max_length, overlap)`, materialized as Python's
`list(split_file(...))` would.  The fuel `len + 1` is enough for every
terminating run (whenever `overlap < max_length`). -/
def split_file (content : String) (maxLength overlap : Nat) : Option (List String) :=
  (sfAux content.data maxLength overlap (content.data.length + 1) 0).map
    (List.map String.mk)

theorem sfAux_spec (c : List Char) (m ov : Nat) (hov : ov < m) :
    ∀ (fuel start : Nat), c.length - start < fuel →
      ∃ k, sfAux c m ov fuel start
          = some ((List.range k).map fun i =>
              (c.drop (start + i * (m - ov))).take (m + ov))
        ∧ (∀ i, i < k → start + i * (m - ov) < c.length)
        ∧ c.length ≤ start + k * (m - ov)
  | 0, start => by omega
  | fuel + 1, start => by
    intro hfuel
    by_cases hs : start < c.length
    · have hd : 1 ≤ m - ov := by omega
      have hrec := sfAux_spec c m ov hov fuel (start + (m - ov)) (by omega)
      obtain ⟨k, hk, hlt, hge⟩ := hrec
      refine ⟨k + 1, ?_, ?_, ?_⟩
      · have hchunk :
            (if start + m + ov < c.length
             then (c.drop start).take (m + ov)
             else c.drop start) = (c.drop start).take (m + ov) := by
          by_cases hl : start + m + ov < c.length
          · rw [if_pos hl]
          · rw [if_neg hl]
            have : (c.drop start).length ≤ m + ov := by
              rw [List.length_drop]; omega
            exact (List.take_of_length_le this).symm
        have hmap : (List.range k).map
              (fun i => (c.drop (start + (m - ov) + i * (m - ov))).take (m + ov))
            = (List.range k).map
              ((fun i => (c.drop (start + i * (m - ov))).take (m + ov)) ∘ Nat.succ) := by
          apply List.map_congr_left
          intro i _
          have harg : start + (m - ov) + i * (m - ov)
              = start + Nat.succ i * (m - ov) := by
            rw [Nat.succ_mul]; ring
          simp only [Function.comp_apply, harg]
        simp only [sfAux, if_pos hs, hk, hchunk, hmap]
        rw [List.range_succ_eq_map, List.map_cons, List.map_map]
        simp
      · intro i hi
        match i with
        | 0 => simpa using hs
        | j + 1 =>
          have := hlt j (by omega)
          have : start + (j + 1) * (m - ov) = start + (m - ov) + j * (m - ov) := by ring
          omega
      · have : start + (k + 1) * (m - ov) = start + (m - ov) + k * (m - ov) := by ring
        omega
    · refine ⟨0, ?_, by omega, by omega⟩
      simp [sfAux, hs]

/-- For content of length 4500, `split_file(content, 4000, 200)` yields
exactly the two chunks `content[0:4200]` and `content[3800:4500]`. -/
theorem split_file_len4500 (content : String) (h : content.data.length = 4500) :
    split_file content 4000 200
      = some [String.mk (content.data.take 4200),
              String.mk (content.data.drop 3800)] := by
  obtain ⟨k, hk, hlt, hge⟩ :=
    sfAux_spec content.data 4000 200 (by omega) (content.data.length + 1) 0 (by omega)
  have hk2 : k = 2 := by
    have h1 : k ≤ 2 := by
      by_contra hgt
      have := hlt 2 (by omega)
      omega
    omega
  subst hk2
  unfold split_file
  rw [hk]
  have hdrop : (content.data.drop 3800).take 4200 = content.data.drop 3800 := by
    apply List.take_of_length_le
    rw [List.length_drop]
    omega
  simp [List.range_succ, hdrop]

/-- C5, counterexample.  On content of length 4500 with
`max_length = 4000`, `overlap = 200`, the first chunk has length 4200:
chunks are *not* bounded by `max_length`, and the two chunks share the
range `[3800, 4200)`, not `[3800, 4000)`. -/
theorem C5_counterexample :
    ((split_file (String.mk (List.replicate 4500 'a')) 4000 200).getD []).map
        String.length = [4200, 700]
      ∧ ¬ (4200 ≤ 4000) := by
  have hlen : (String.mk (List.replicate 4500 'a')).data.length = 4500 := by
    show (List.replicate 4500 'a').length = 4500
    rw [List.length_replicate]
  have h := split_file_len4500 _ hlen
  rw [h]
  refine ⟨?_, by omega⟩
  show [((List.replicate 4500 'a').take 4200).length,
        ((List.replicate 4500 'a').drop 3800).length] = [4200, 700]
  rw [List.length_take, List.length_drop, List.length_replicate]
  norm_num

/-- C5, amended.  `split_file(content, 4000, 200)` on content of length
4500 yields exactly 2 chunks; chunk 2 starts at offset 3800; the two
chunks overlap exactly in the character range `[3800, 4200)`; every
chunk is a contiguous slice of size at most `max_length + overlap`
sharing the overlap region with its predecessor. -/
theorem C5_split_file_4500_amended (content : String)
    (h : content.data.length = 4500) :
    split_file content 4000 200
        = some [String.mk (content.data.take 4200),
                String.mk (content.data.drop 3800)]
      ∧ (String.mk (content.data.take 4200)).length ≤ 4000 + 200
      ∧ (content.data.take 4200).drop 3800 = (content.data.drop 3800).take 400 := by
  refine ⟨split_file_len4500 content h, ?_, ?_⟩
  · show (content.data.take 4200).length ≤ 4000 + 200
    rw [List.length_take]
    omega
  · rw [List.drop_take]

/-- C5, witness for the amended theorem: the concrete content
`'a' * 4500`. -/
theorem C5_witness :
    split_file (String.mk (List.replicate 4500 'a')) 4000 200
      = some [String.mk (List.replicate 4200 'a'),
              String.mk (List.replicate 700 'a')] := by
  have hlen : (String.mk (List.replicate 4500 'a')).data.length = 4500 := by
    show (List.replicate 4500 'a').length = 4500
    rw [List.length_replicate]
  have h := (C5_split_file_4500_amended _ hlen).1
  rw [h, List.take_replicate, List.drop_replicate]
  norm_num

/-- C6.  For every content and every `overlap < max_length`,
`split_file` terminates (returns `some`); the chunk start offsets are
exactly `0, d, 2d, ...` with `d = max_length - overlap`, all below the
content length, with the next start past the end; the chunks cover
every position of `[0, content_length)`; and empty content yields an
empty sequence. -/
theorem C6_split_file_total (content : String) (m ov : Nat) (hov : ov < m) :
    ∃ k,
      split_file content m ov
          = some ((List.range k).map fun i =>
              String.mk ((content.data.drop (i * (m - ov))).take (m + ov)))
        ∧ (∀ i, i < k → i * (m - ov) < content.data.length)
        ∧ content.data.length ≤ k * (m - ov)
        ∧ (∀ n, n < content.data.length →
            ∃ i, i < k ∧ i * (m - ov) ≤ n ∧ n < i * (m - ov) + (m + ov))
        ∧ (content = "" → split_file content m ov = some []) := by
  obtain ⟨k, hk, hlt, hge⟩ :=
    sfAux_spec content.data m ov hov (content.data.length + 1) 0 (by omega)
  have hsf : split_file content m ov
      = some ((List.range k).map fun i =>
          String.mk ((content.data.drop (i * (m - ov))).take (m + ov))) := by
    unfold split_file
    rw [hk]
    simp
  refine ⟨k, hsf, by simpa using hlt, by simpa using hge, ?_, ?_⟩
  · intro n hn
    have hd : 0 < m - ov := by omega
    refine ⟨n / (m - ov), ?_, Nat.div_mul_le_self n (m - ov), ?_⟩
    · rw [Nat.div_lt_iff_lt_mul hd]
      have := hge
      omega
    · have hdm := Nat.div_add_mod n (m - ov)
      rw [Nat.mul_comm] at hdm
      have hmlt := Nat.mod_lt n hd
      omega
  · intro he
    have hlen : content.data.length = 0 := by rw [he]; rfl
    have hk0 : k = 0 := by
      by_contra h0
      have := hlt 0 (by omega)
      omega
    subst hk0
    simpa using hsf

/-- C6, witness: `max_length = 2`, `overlap = 1` on `"abcde"`. -/
theorem C6_witness :
    split_file "abcde" 2 1 = some ["abc", "bcd", "cde", "de", "e"] := by
  obtain ⟨k, h1, h2, h3, -, -⟩ := C6_split_file_total "abcde" 2 1 (by decide)
  have hlen : "abcde".data.length = 5 := rfl
  have hk : k = 5 := by
    have hle : k ≤ 5 := by
      by_contra hgt
      have := h2 5 (by omega)
      omega
    omega
  subst hk
  rw [h1]
  decide

/-! ## The filesystem model

An explicit state: an association list from absolute file paths to
contents, plus the list of existing directories.  The primitives model
the POSIX behaviour of `open(..., "r"/"w"/"a")`, `os.remove`,
`os.makedirs` and `os.path.exists` as used by the module. -/

/-- `posixpath.split(p)`: the pair (head, tail) around the final slash,
with trailing slashes stripped from the head unless it is all
slashes. -/
def splitPath (p : String) : String × String :=
  let tail := (p.data.reverse.takeWhile (fun c => c ≠ '/')).reverse
  let headRaw := p.data.take (p.data.length - tail.length)
  let head :=
    if headRaw ≠ [] ∧ ¬ headRaw.all (fun c => c = '/')
    then (headRaw.reverse.dropWhile (fun c => c = '/')).reverse
    else headRaw
  (String.mk head, String.mk tail)

/-- `os.path.dirname`. -/
def dirname (p : String) : String := (splitPath p).1

/-- `os.path.basename`. -/
def basename (p : String) : String := (splitPath p).2

/-- Python exceptions that the modelled filesystem primitives raise. -/
inductive PyError : Type
  | fileNotFound (p : String)
  | isADirectory (p : String)
  | fileExists (p : String)
  | recursionError
deriving DecidableEq

/-- `str(e)` for the modelled exceptions (CPython's messages). -/
def pyErrStr : PyError → String
  | .fileNotFound p => "[Errno 2] No such file or directory: '" ++ p ++ "'"
  | .isADirectory p => "[Errno 21] Is a directory: '" ++ p ++ "'"
  | .fileExists p => "[Errno 17] File exists: '" ++ p ++ "'"
  | .recursionError => "maximum recursion depth exceeded"

/-- The filesystem state: file contents by absolute path, plus the set
of existing directories. -/
structure FS : Type where
  files : List (String × String)
  dirs : List String
deriving DecidableEq

/-- Association-list lookup of a file's content. -/
def lookupFile : List (String × String) → String → Option String
  | [], _ => none
  | (q, c) :: rest, p => if q = p then some c else lookupFile rest p

/-- Association-list update/insert of a file's content. -/
def setFile : List (String × String) → String → String → List (String × String)
  | [], p, c => [(p, c)]
  | (q, d) :: rest, p, c =>
    if q = p then (p, c) :: rest else (q, d) :: setFile rest p c

/-- Association-list removal of a file. -/
def removeFile : List (String × String) → String → List (String × String)
  | [], _ => []
  | (q, d) :: rest, p =>
    if q = p then removeFile rest p else (q, d) :: removeFile rest p

/-- `os.path.exists`. -/
def pathExists (fs : FS) (p : String) : Bool :=
  (lookupFile fs.files p).isSome || decide (p ∈ fs.dirs)

/-- `open(p, "r")` followed by `.read()`. -/
def openRead (fs : FS) (p : String) : Except PyError String :=
  match lookupFile fs.files p with
  | some c => .ok c
  | none =>
    if p ∈ fs.dirs then .error (.isADirectory p) else .error (.fileNotFound p)

/-- `open(p, "w")` followed by `.write(text)`: truncates/creates the
file; fails if `p` is a directory or its parent directory is missing. -/
def openWrite (fs : FS) (p text : String) : Except PyError FS :=
  if p ∈ fs.dirs then .error (.isADirectory p)
  else if dirname p ∈ fs.dirs then
    .ok { fs with files := setFile fs.files p text }
  else .error (.fileNotFound p)

/-- `open(p, "a")` followed by `.write(text)`: appends to the file,
creating it if missing; fails if `p` is a directory or its parent
directory is missing. -/
def openAppend (fs : FS) (p text : String) : Except PyError FS :=
  if p ∈ fs.dirs then .error (.isADirectory p)
  else if dirname p ∈ fs.dirs then
    .ok { fs with files := setFile fs.files p ((lookupFile fs.files p).getD "" ++ text) }
  else .error (.fileNotFound p)

/-- `os.remove(p)`. -/
def osRemove (fs : FS) (p : String) : Except PyError FS :=
  if (lookupFile fs.files p).isSome then
    .ok { fs with files := removeFile fs.files p }
  else if p ∈ fs.dirs then .error (.isADirectory p)
  else .error (.fileNotFound p)

/-- The chain `d, dirname d, dirname (dirname d), ...` up to the first
fixpoint (fuelled by the path length, which bounds the chain). -/
def ancestors : Nat → String → List String
  | 0, p => [p]
  | fuel + 1, p => if dirname p = p then [p] else p :: ancestors fuel (dirname p)

/-- `os.makedirs(d)`: creates `d` and all missing ancestors; raises if
`d` already exists as a directory or if anything on the chain exists as
a file. -/
def makedirs (fs : FS) (d : String) : Except PyError FS :=
  let chain := ancestors d.data.length d
  if d ∈ fs.dirs then .error (.fileExists d)
  else if chain.any (fun q => (lookupFile fs.files q).isSome) then
    .error (.fileExists d)
  else .ok { fs with dirs := chain ++ fs.dirs }

/-! ## The file-store operations

`restricted` models `CFG.working_directory_restricted`; all claims
below are stated for `restricted = true`, the sandboxed configuration.
The `fuel` argument models the CPython recursion limit on the mutually
recursive pair `log_operation` / `append_to_file`: entering a call with
`fuel = 0` raises `RecursionError` (caught by `except Exception` blocks
like any other exception, with the state reached so far kept). -/

/-- `read_file(filename)`. -/
def read_file (restricted : Bool) (fs : FS) (filename : String) : String :=
  match safe_join restricted WORKING_DIRECTORY [filename] with
  | .error msg => "Error: " ++ msg
  | .ok filepath =>
    match openRead fs filepath with
    | .ok content => content
    | .error e => "Error: " ++ pyErrStr e

/-- `check_duplicate_operation(operation, filename)`: substring test of
the log line `"<operation>: <filename>\n"` against `read_file(LOG_FILE)`. -/
def check_duplicate_operation (restricted : Bool) (fs : FS)
    (operation filename : String) : Bool :=
  let log_content := read_file restricted fs LOG_FILE
  let log_entry := operation ++ ": " ++ filename ++ "\n"
  decide (log_entry.data <:+: log_content.data)

mutual

/-- `log_operation(operation, filename)`: lazily creates the log file
with its header, then calls `append_to_file(LOG_FILE, log_entry)`.
Exceptions (including the recursion-depth error at `fuel = 0`)
propagate to the caller; the state reached so far is kept. -/
def log_operation (restricted : Bool) :
    Nat → FS → String → String → FS × Except PyError Unit
  | 0, fs, _, _ => (fs, .error .recursionError)
  | fuel + 1, fs, operation, filename =>
    let log_entry := operation ++ ": " ++ filename ++ "\n"
    match (if pathExists fs LOG_FILE_PATH then .ok fs
           else openWrite fs LOG_FILE_PATH "File Operation Logger " :
            Except PyError FS) with
    | .error e => (fs, .error e)
    | .ok fs1 =>
      match append_to_file restricted fuel fs1 LOG_FILE log_entry with
      | (fs2, .ok _) => (fs2, .ok ())
      | (fs2, .error e) => (fs2, .error e)

/-- `append_to_file(filename, text)`: appends and then unconditionally
calls `log_operation("append", filename)`; every exception inside the
`try` block is caught and rendered as an `"Error: ..."` result.  The
only escaping error is the recursion-depth error on entry
(`fuel = 0`). -/
def append_to_file (restricted : Bool) :
    Nat → FS → String → String → FS × Except PyError String
  | 0, fs, _, _ => (fs, .error .recursionError)
  | fuel + 1, fs, filename, text =>
    match safe_join restricted WORKING_DIRECTORY [filename] with
    | .error msg => (fs, .ok ("Error: " ++ msg))
    | .ok filepath =>
      match openAppend fs filepath text with
      | .error e => (fs, .ok ("Error: " ++ pyErrStr e))
      | .ok fs1 =>
        match log_operation restricted fuel fs1 "append" filename with
        | (fs2, .ok _) => (fs2, .ok "Text appended successfully.")
        | (fs2, .error e) => (fs2, .ok ("Error: " ++ pyErrStr e))

end

/-- `write_to_file(filename, text)`. -/
def write_to_file (restricted : Bool) (fuel : Nat) (fs : FS)
    (filename text : String) : FS × String :=
  if check_duplicate_operation restricted fs "write" filename then
    (fs, "Error: File has already been updated.")
  else
    match safe_join restricted WORKING_DIRECTORY [filename] with
    | .error msg => (fs, "Error: " ++ msg)
    | .ok filepath =>
      match (if pathExists fs (dirname filepath) then .ok fs
             else makedirs fs (dirname filepath) : Except PyError FS) with
      | .error e => (fs, "Error: " ++ pyErrStr e)
      | .ok fs1 =>
        match openWrite fs1 filepath text with
        | .error e => (fs1, "Error: " ++ pyErrStr e)
        | .ok fs2 =>
          match log_operation restricted fuel fs2 "write" filename with
          | (fs3, .ok _) => (fs3, "File written to successfully.")
          | (fs3, .error e) => (fs3, "Error: " ++ pyErrStr e)

/-- `delete_file(filename)`. -/
def delete_file (restricted : Bool) (fuel : Nat) (fs : FS)
    (filename : String) : FS × String :=
  if check_duplicate_operation restricted fs "delete" filename then
    (fs, "Error: File has already been deleted.")
  else
    match safe_join restricted WORKING_DIRECTORY [filename] with
    | .error msg => (fs, "Error: " ++ msg)
    | .ok filepath =>
      match osRemove fs filepath with
      | .error e => (fs, "Error: " ++ pyErrStr e)
      | .ok fs1 =>
        match log_operation restricted fuel fs1 "delete" filename with
        | (fs2, .ok _) => (fs2, "File deleted successfully.")
        | (fs2, .error e) => (fs2, "Error: " ++ pyErrStr e)

/-! ## Support lemmas on the filesystem model -/

theorem lookupFile_setFile_self (l : List (String × String)) (p c : String) :
    lookupFile (setFile l p c) p = some c := by
  induction l with
  | nil => simp [setFile, lookupFile]
  | cons hd tl ih =>
    obtain ⟨q, d⟩ := hd
    by_cases h : q = p
    · simp [setFile, h, lookupFile]
    · simp [setFile, h, lookupFile, ih]

theorem lookupFile_setFile_ne (l : List (String × String)) (p c q : String)
    (h : q ≠ p) : lookupFile (setFile l p c) q = lookupFile l q := by
  induction l with
  | nil => simp [setFile, lookupFile, Ne.symm h]
  | cons hd tl ih =>
    obtain ⟨r, d⟩ := hd
    by_cases hr : r = p
    · subst hr
      simp [setFile, lookupFile, Ne.symm h]
    · simp only [setFile, if_neg hr, lookupFile]
      by_cases hq : r = q
      · simp [hq]
      · simp [hq, ih]

theorem lookupFile_removeFile_ne (l : List (String × String)) (p q : String)
    (h : q ≠ p) : lookupFile (removeFile l p) q = lookupFile l q := by
  induction l with
  | nil => simp [removeFile]
  | cons hd tl ih =>
    obtain ⟨r, d⟩ := hd
    by_cases hr : r = p
    · subst hr
      simp [removeFile, lookupFile, Ne.symm h, ih]
    · simp only [removeFile, if_neg hr, lookupFile]
      by_cases hq : r = q
      · simp [hq]
      · simp [hq, ih]

theorem str_append_empty (s : String) : s ++ "" = s := by
  apply String.ext
  rw [String.data_append]
  simp [String.data]

theorem str_append_assoc (a b c : String) : a ++ b ++ c = a ++ (b ++ c) := by
  apply String.ext
  simp [String.data_append]

/-- `safe_join` on the log file resolves to `LOG_FILE_PATH`. -/
theorem safe_join_log :
    safe_join true WORKING_DIRECTORY [LOG_FILE] = .ok LOG_FILE_PATH := by decide

theorem dirname_log : dirname LOG_FILE_PATH = WORKING_DIRECTORY := by decide

/-- The state change performed by `log_operation` / the inner
`append_to_file` loop is confined to the log file: directories are
untouched, no other file is touched, and existing log content is only
ever extended. -/
def logConfined (fs fs' : FS) : Prop :=
  fs'.dirs = fs.dirs
  ∧ (∀ q, q ≠ LOG_FILE_PATH → lookupFile fs'.files q = lookupFile fs.files q)
  ∧ (∀ c, lookupFile fs.files LOG_FILE_PATH = some c →
      ∃ s, lookupFile fs'.files LOG_FILE_PATH = some (c ++ s))

theorem logConfined_refl (fs : FS) : logConfined fs fs :=
  ⟨rfl, fun _ _ => rfl, fun c h => ⟨"", by rw [h, str_append_empty]⟩⟩

theorem logConfined_trans {a b c : FS} (h1 : logConfined a b)
    (h2 : logConfined b c) : logConfined a c := by
  obtain ⟨hd1, hq1, hl1⟩ := h1
  obtain ⟨hd2, hq2, hl2⟩ := h2
  refine ⟨hd2.trans hd1, fun q hq => (hq2 q hq).trans (hq1 q hq), fun cc hc => ?_⟩
  obtain ⟨s, hs⟩ := hl1 cc hc
  obtain ⟨t, ht⟩ := hl2 _ hs
  exact ⟨s ++ t, by rw [ht, str_append_assoc]⟩

theorem openWrite_ok {fs fs' : FS} {p t : String} (h : openWrite fs p t = .ok fs') :
    fs' = { fs with files := setFile fs.files p t }
      ∧ p ∉ fs.dirs ∧ dirname p ∈ fs.dirs := by
  unfold openWrite at h
  split at h
  · simp at h
  · split at h
    · refine ⟨?_, by assumption, by assumption⟩
      injection h with h
      exact h.symm
    · simp at h

theorem openAppend_ok {fs fs' : FS} {p t : String}
    (h : openAppend fs p t = .ok fs') :
    fs' = { fs with
        files := setFile fs.files p ((lookupFile fs.files p).getD "" ++ t) }
      ∧ p ∉ fs.dirs ∧ dirname p ∈ fs.dirs := by
  unfold openAppend at h
  split at h
  · simp at h
  · split at h
    · refine ⟨?_, by assumption, by assumption⟩
      injection h with h
      exact h.symm
    · simp at h

theorem osRemove_ok {fs fs' : FS} {p : String} (h : osRemove fs p = .ok fs') :
    fs' = { fs with files := removeFile fs.files p } := by
  unfold osRemove at h
  split at h
  · injection h with h
    exact h.symm
  · split at h <;> simp at h

theorem pathExists_false {fs : FS} {p : String} (h : pathExists fs p = false) :
    lookupFile fs.files p = none ∧ p ∉ fs.dirs := by
  unfold pathExists at h
  simp only [Bool.or_eq_false_iff, decide_eq_false_iff_not] at h
  refine ⟨?_, h.2⟩
  cases hl : lookupFile fs.files p
  · rfl
  · rw [hl] at h
    simp at h

/-- Every run of `log_operation`, and of `append_to_file` on the log
file itself, only touches the log file (mutual induction on fuel). -/
theorem confined_pair :
    ∀ fuel : Nat,
      (∀ fs op fn, logConfined fs (log_operation true fuel fs op fn).1)
      ∧ (∀ fs text, logConfined fs (append_to_file true fuel fs LOG_FILE text).1)
  | 0 => ⟨fun fs _ _ => logConfined_refl fs, fun fs _ => logConfined_refl fs⟩
  | fuel + 1 => by
    obtain ⟨ihlog, ihapp⟩ := confined_pair fuel
    constructor
    · intro fs op fn
      simp only [log_operation]
      cases hex : pathExists fs LOG_FILE_PATH
      · simp only [hex, Bool.false_eq_true, if_false]
        rcases hw : openWrite fs LOG_FILE_PATH "File Operation Logger " with e | fs1
        · exact logConfined_refl fs
        · obtain ⟨hfs1, -, -⟩ := openWrite_ok hw
          have hnone := (pathExists_false hex).1
          have h01 : logConfined fs fs1 := by
            subst hfs1
            refine ⟨rfl, fun q hq => lookupFile_setFile_ne _ _ _ _ hq, ?_⟩
            intro c hc
            rw [hnone] at hc
            exact absurd hc (by simp)
          have h12 := ihapp fs1 (op ++ ": " ++ fn ++ "\n")
          rcases happ : append_to_file true fuel fs1 LOG_FILE
              (op ++ ": " ++ fn ++ "\n") with ⟨fs2, r⟩
          rw [happ] at h12
          dsimp only
          rw [happ]
          cases r <;> exact logConfined_trans h01 h12
      · simp only [hex, eq_self_iff_true, if_true]
        have h12 := ihapp fs (op ++ ": " ++ fn ++ "\n")
        rcases happ : append_to_file true fuel fs LOG_FILE
            (op ++ ": " ++ fn ++ "\n") with ⟨fs2, r⟩
        rw [happ] at h12
        cases r <;> exact h12
    · intro fs text
      simp only [append_to_file, safe_join_log]
      rcases ha : openAppend fs LOG_FILE_PATH text with e | fs1
      · exact logConfined_refl fs
      · obtain ⟨hfs1, -, -⟩ := openAppend_ok ha
        have h01 : logConfined fs fs1 := by
          subst hfs1
          refine ⟨rfl, fun q hq => lookupFile_setFile_ne _ _ _ _ hq, ?_⟩
          intro c hc
          refine ⟨text, ?_⟩
          rw [lookupFile_setFile_self, hc]
          simp
        have h12 := ihlog fs1 "append" LOG_FILE
        rcases hl : log_operation true fuel fs1 "append" LOG_FILE with ⟨fs2, r⟩
        rw [hl] at h12
        dsimp only
        rw [hl]
        cases r <;> exact logConfined_trans h01 h12

/-- With positive fuel, `append_to_file` never lets an exception
escape: the result is always `Except.ok`, either the success message or
an `"Error: ..."` string. -/
theorem append_to_file_ok (restricted : Bool) (fuel : Nat) (fs : FS)
    (fn text : String) :
    ∃ fs' m, append_to_file restricted (fuel + 1) fs fn text = (fs', Except.ok m)
      ∧ (m = "Text appended successfully." ∨ ∃ t, m = "Error: " ++ t) := by
  simp only [append_to_file]
  rcases hsj : safe_join restricted WORKING_DIRECTORY [fn] with msg | filepath
  · exact ⟨fs, _, rfl, Or.inr ⟨msg, rfl⟩⟩
  · dsimp only
    rcases ha : openAppend fs filepath text with e | fs1
    · exact ⟨fs, _, rfl, Or.inr ⟨pyErrStr e, rfl⟩⟩
    · dsimp only
      rcases hl : log_operation restricted fuel fs1 "append" fn with ⟨fs2, r⟩
      cases r with
      | ok u => exact ⟨fs2, _, rfl, Or.inl rfl⟩
      | error e => exact ⟨fs2, _, rfl, Or.inr ⟨pyErrStr e, rfl⟩⟩

/-- When the working directory exists, the log path is not a directory
and the log file exists with content `c₀`, `append_to_file` on the log
file appends its text (the later recursion only appends more). -/
theorem append_log_appends (k : Nat) (fs1 : FS) (text c₀ : String)
    (hWD : WORKING_DIRECTORY ∈ fs1.dirs)
    (hLd : LOG_FILE_PATH ∉ fs1.dirs)
    (hc : lookupFile fs1.files LOG_FILE_PATH = some c₀) :
    ∃ fs3 m s, append_to_file true (k + 1) fs1 LOG_FILE text = (fs3, Except.ok m)
      ∧ lookupFile fs3.files LOG_FILE_PATH = some (c₀ ++ text ++ s)
      ∧ logConfined fs1 fs3 := by
  simp only [append_to_file, safe_join_log]
  have ha : openAppend fs1 LOG_FILE_PATH text
      = .ok { fs1 with
          files := setFile fs1.files LOG_FILE_PATH (c₀ ++ text) } := by
    unfold openAppend
    rw [if_neg hLd, dirname_log, if_pos hWD, hc]
    rfl
  rw [ha]
  dsimp only
  rcases hl : log_operation true k
      { fs1 with files := setFile fs1.files LOG_FILE_PATH (c₀ ++ text) }
      "append" LOG_FILE with ⟨fs3, r⟩
  have hconf := (confined_pair k).1
    { fs1 with files := setFile fs1.files LOG_FILE_PATH (c₀ ++ text) }
    "append" LOG_FILE
  rw [hl] at hconf
  have hlk2 : lookupFile
      (setFile fs1.files LOG_FILE_PATH (c₀ ++ text)) LOG_FILE_PATH
      = some (c₀ ++ text) := lookupFile_setFile_self _ _ _
  obtain ⟨s, hs⟩ := hconf.2.2 _ hlk2
  have hconf01 : logConfined fs1
      { fs1 with files := setFile fs1.files LOG_FILE_PATH (c₀ ++ text) } := by
    refine ⟨rfl, fun q hq => lookupFile_setFile_ne _ _ _ _ hq, ?_⟩
    intro c hcc
    rw [hc] at hcc
    injection hcc with hcc
    subst hcc
    exact ⟨text, hlk2⟩
  cases r with
  | ok u => exact ⟨fs3, _, s, rfl, hs, logConfined_trans hconf01 hconf⟩
  | error e => exact ⟨fs3, _, s, rfl, hs, logConfined_trans hconf01 hconf⟩

/-- With recursion budget at least 2, `log_operation` returns normally
and the entry line `"<op>: <fn>\n"` ends up inside the log file; the
state change is confined to the log file. -/
theorem log_operation_logs (fuel : Nat) (fs : FS) (op fn : String)
    (hWD : WORKING_DIRECTORY ∈ fs.dirs)
    (hLd : LOG_FILE_PATH ∉ fs.dirs)
    (hfuel : 2 ≤ fuel) :
    ∃ fs' c', log_operation true fuel fs op fn = (fs', Except.ok ())
      ∧ lookupFile fs'.files LOG_FILE_PATH = some c'
      ∧ (op ++ ": " ++ fn ++ "\n").data <:+: c'.data
      ∧ logConfined fs fs' := by
  obtain ⟨k, rfl⟩ : ∃ k, fuel = k + 2 := ⟨fuel - 2, by omega⟩
  simp only [log_operation]
  cases hex : pathExists fs LOG_FILE_PATH
  · have hnone := (pathExists_false hex).1
    simp only [Bool.false_eq_true, if_false]
    have hw : openWrite fs LOG_FILE_PATH "File Operation Logger "
        = .ok { fs with
            files := setFile fs.files LOG_FILE_PATH "File Operation Logger " } := by
      unfold openWrite
      rw [if_neg hLd, dirname_log, if_pos hWD]
    rw [hw]
    dsimp only
    obtain ⟨fs3, m, s, happ, hs, hconf⟩ := append_log_appends k
      { fs with files := setFile fs.files LOG_FILE_PATH "File Operation Logger " }
      (op ++ ": " ++ fn ++ "\n") "File Operation Logger " hWD hLd
      (lookupFile_setFile_self _ _ _)
    rw [happ]
    refine ⟨fs3, _, rfl, hs, ?_, ?_⟩
    · exact ⟨("File Operation Logger ").data, s.data, by simp [String.data_append]⟩
    · have hconf0 : logConfined fs
          { fs with files := setFile fs.files LOG_FILE_PATH "File Operation Logger " } := by
        refine ⟨rfl, fun q hq => lookupFile_setFile_ne _ _ _ _ hq, ?_⟩
        intro c hc
        rw [hnone] at hc
        exact absurd hc (by simp)
      exact logConfined_trans hconf0 hconf
  · simp only [hex, eq_self_iff_true, if_true]
    have hsome : ∃ c₀, lookupFile fs.files LOG_FILE_PATH = some c₀ := by
      unfold pathExists at hex
      cases hl : lookupFile fs.files LOG_FILE_PATH
      · rw [hl] at hex
        simp only [Option.isSome_none, Bool.false_or, decide_eq_true_eq] at hex
        exact absurd hex hLd
      · exact ⟨_, rfl⟩
    obtain ⟨c₀, hc₀⟩ := hsome
    obtain ⟨fs3, m, s, happ, hs, hconf⟩ := append_log_appends k fs
      (op ++ ": " ++ fn ++ "\n") c₀ hWD hLd hc₀
    rw [happ]
    exact ⟨fs3, _, rfl, hs,
      ⟨c₀.data, s.data, by simp [String.data_append]⟩, hconf⟩

/-- A string starting with `"Error: "` differs from any string whose
first character is not `'E'`. -/
theorem err_prefix_ne {s t : String} (ht : t.data.head? ≠ some 'E') :
    "Error: " ++ s ≠ t := by
  intro h
  apply ht
  rw [← h]
  obtain ⟨l⟩ := s
  rfl

/-- When the log file exists with content `c`, the duplicate check is
exactly the substring test of the entry line against `c`. -/
theorem check_dup_eq (fs : FS) (op f c : String)
    (hc : lookupFile fs.files LOG_FILE_PATH = some c) :
    check_duplicate_operation true fs op f
      = decide ((op ++ ": " ++ f ++ "\n").data <:+: c.data) := by
  unfold check_duplicate_operation read_file
  rw [safe_join_log]
  dsimp only
  unfold openRead
  rw [hc]

/-- C9.  When the log file does not exist, `check_duplicate_operation`
returns `False` for every operation kind and filename: the delegated
read returns the `FileNotFoundError` message (a single line with no
newline), which can never contain the newline-terminated entry line. -/
theorem C9_missing_log_no_duplicates (fs : FS) (op f : String)
    (hnone : lookupFile fs.files LOG_FILE_PATH = none)
    (hnd : LOG_FILE_PATH ∉ fs.dirs) :
    check_duplicate_operation true fs op f = false := by
  unfold check_duplicate_operation read_file
  rw [safe_join_log]
  dsimp only
  unfold openRead
  rw [hnone]
  dsimp only
  rw [if_neg hnd]
  simp only [decide_eq_false_iff_not]
  intro hinf
  have hmem : '\n' ∈ (op ++ ": " ++ f ++ "\n").data := by
    rw [String.data_append]
    exact List.mem_append_right _ (by decide)
  have hmem2 := hinf.subset hmem
  revert hmem2
  decide

/-- C9, witness: empty filesystem (no log file), a concrete kind and
filename. -/
theorem C9_witness :
    check_duplicate_operation true ⟨[], ["/", "/auto_gpt_workspace"]⟩
      "write" "a.txt" = false :=
  C9_missing_log_no_duplicates _ "write" "a.txt" rfl (by decide)

theorem makedirs_ok {fs fs' : FS} {d : String} (h : makedirs fs d = .ok fs') :
    fs'.files = fs.files := by
  unfold makedirs at h
  dsimp only at h
  split at h
  · simp at h
  · split at h
    · simp at h
    · injection h with h
      subst h
      rfl

/-- A path heads its own ancestor chain. -/
theorem mem_ancestors_self (n : Nat) (d : String) : d ∈ ancestors n d := by
  cases n with
  | zero => simp [ancestors]
  | succ m =>
    unfold ancestors
    split
    · simp
    · simp

/-- With recursion budget 0 or 1, `log_operation` always raises. -/
theorem log_operation_small (fuel : Nat) (fs : FS) (op fn : String)
    (h : fuel ≤ 1) :
    ∃ e, (log_operation true fuel fs op fn).2 = Except.error e := by
  match fuel, h with
  | 0, _ => exact ⟨.recursionError, rfl⟩
  | 1, _ =>
    simp only [log_operation]
    cases hex : pathExists fs LOG_FILE_PATH
    · simp only [Bool.false_eq_true, if_false]
      rcases hw : openWrite fs LOG_FILE_PATH "File Operation Logger " with e | fs1
      · exact ⟨e, rfl⟩
      · exact ⟨.recursionError, rfl⟩
    · simp only [hex, eq_self_iff_true, if_true]
      exact ⟨.recursionError, rfl⟩

/-- The self-logging loop between `log_operation` and `append_to_file`
appends at least 12 characters to the log per unit of recursion budget
(mutual induction on fuel): there is no base case, the recursion is
stopped only by exhausting the recursion budget. -/
theorem log_growth_pair :
    ∀ fuel : Nat,
      (∀ (fs : FS) (c : String), WORKING_DIRECTORY ∈ fs.dirs →
        LOG_FILE_PATH ∉ fs.dirs →
        lookupFile fs.files LOG_FILE_PATH = some c →
        ∃ s, lookupFile (log_operation true fuel fs "append" LOG_FILE).1.files
              LOG_FILE_PATH = some (c ++ s)
          ∧ 12 * fuel ≤ s.data.length + 12)
      ∧ (∀ (fs : FS) (c : String), WORKING_DIRECTORY ∈ fs.dirs →
        LOG_FILE_PATH ∉ fs.dirs →
        lookupFile fs.files LOG_FILE_PATH = some c →
        ∃ s, lookupFile (append_to_file true fuel fs LOG_FILE
                "append: file_logger.txt\n").1.files LOG_FILE_PATH = some (c ++ s)
          ∧ 12 * fuel ≤ s.data.length)
  | 0 =>
    ⟨fun fs c _ _ hc => ⟨"", by rw [str_append_empty]; exact ⟨hc, by omega⟩⟩,
     fun fs c _ _ hc => ⟨"", by rw [str_append_empty]; exact ⟨hc, by omega⟩⟩⟩
  | fuel + 1 => by
    obtain ⟨ihlog, ihapp⟩ := log_growth_pair fuel
    constructor
    · intro fs c hWD hLd hc
      have hex : pathExists fs LOG_FILE_PATH = true := by
        unfold pathExists
        rw [hc]
        simp
      simp only [log_operation, hex, eq_self_iff_true, if_true]
      have hentry : ("append" : String) ++ ": " ++ LOG_FILE ++ "\n"
          = "append: file_logger.txt\n" := by decide
      rw [hentry]
      obtain ⟨s, hs, hlen⟩ := ihapp fs c hWD hLd hc
      rcases happ : append_to_file true fuel fs LOG_FILE
          "append: file_logger.txt\n" with ⟨fs2, r⟩
      rw [happ] at hs
      refine ⟨s, ?_, by omega⟩
      cases r <;> exact hs
    · intro fs c hWD hLd hc
      simp only [append_to_file, safe_join_log]
      have ha : openAppend fs LOG_FILE_PATH "append: file_logger.txt\n"
          = .ok { fs with files := setFile fs.files LOG_FILE_PATH (c ++ "append: file_logger.txt\n") } := by
        unfold openAppend
        rw [if_neg hLd, dirname_log, if_pos hWD, hc]
        rfl
      rw [ha]
      dsimp only
      obtain ⟨s₁, hs₁, hlen₁⟩ := ihlog
        { fs with files := setFile fs.files LOG_FILE_PATH (c ++ "append: file_logger.txt\n") }
        (c ++ "append: file_logger.txt\n") hWD hLd (lookupFile_setFile_self _ _ _)
      rcases hl : log_operation true fuel
          { fs with files := setFile fs.files LOG_FILE_PATH (c ++ "append: file_logger.txt\n") }
          "append" LOG_FILE with ⟨fs3, r⟩
      rw [hl] at hs₁
      refine ⟨"append: file_logger.txt\n" ++ s₁, ?_, ?_⟩
      · rw [← str_append_assoc]
        cases r <;> exact hs₁
      · have h24 : ("append: file_logger.txt\n" : String).data.length = 24 := rfl
        have : ("append: file_logger.txt\n" ++ s₁).data.length
            = 24 + s₁.data.length := by
          rw [String.data_append, List.length_append, h24]
        omega

/-- C2 (refuting the claimed termination): the recursion between
`log_operation` and `append_to_file` has no base case — during a single
`append_to_file` call on the log file, the log grows by at least
`12 * fuel` characters, unboundedly in the recursion budget `fuel`
(in Python the loop is stopped only by `RecursionError` at the
interpreter's recursion limit, after about `limit / 2` spurious
`"append: file_logger.txt"` log entries). -/
theorem C2_append_no_base_case (fuel : Nat) (fs : FS) (c : String)
    (hWD : WORKING_DIRECTORY ∈ fs.dirs)
    (hLd : LOG_FILE_PATH ∉ fs.dirs)
    (hc : lookupFile fs.files LOG_FILE_PATH = some c) :
    ∃ s, lookupFile (append_to_file true fuel fs LOG_FILE
            "append: file_logger.txt\n").1.files LOG_FILE_PATH = some (c ++ s)
      ∧ 12 * fuel ≤ s.data.length :=
  (log_growth_pair fuel).2 fs c hWD hLd hc

/-- C2, witness: a concrete run with recursion budget 6 on a state
holding an empty log appends at least 72 characters to the log. -/
theorem C2_witness :
    72 ≤ ((lookupFile (append_to_file true 6
        ⟨[(LOG_FILE_PATH, "")], ["/", WORKING_DIRECTORY]⟩
        LOG_FILE "append: file_logger.txt\n").1.files LOG_FILE_PATH).getD
          "").data.length := by
  obtain ⟨s, hs, hlen⟩ := C2_append_no_base_case 6
    ⟨[(LOG_FILE_PATH, "")], ["/", WORKING_DIRECTORY]⟩ ""
    (by decide) (by decide) rfl
  rw [hs]
  have : (("" : String) ++ s).data.length = s.data.length := by
    rw [String.data_append]
    simp
  simp only [Option.getD_some]
  omega

/-- Inversion of a successful `delete_file`: the duplicate check was
clear, the path resolved, the file was removed, and the `"delete"`
entry made it into the log; directories are untouched, and (when the
resolved path is not the log itself) existing log content is only
extended. -/
theorem delete_success_inv {fuel : Nat} {fs fs' : FS} {f : String}
    (hWD : WORKING_DIRECTORY ∈ fs.dirs)
    (hLd : LOG_FILE_PATH ∉ fs.dirs)
    (h : delete_file true fuel fs f = (fs', "File deleted successfully.")) :
    ∃ p c', safe_join true WORKING_DIRECTORY [f] = .ok p
      ∧ lookupFile fs'.files LOG_FILE_PATH = some c'
      ∧ ("delete" ++ ": " ++ f ++ "\n").data <:+: c'.data
      ∧ fs'.dirs = fs.dirs
      ∧ (p ≠ LOG_FILE_PATH →
          ∀ c, lookupFile fs.files LOG_FILE_PATH = some c →
            ∃ s, lookupFile fs'.files LOG_FILE_PATH = some (c ++ s)) := by
  unfold delete_file at h
  split at h
  · injection h with h1 h2
    exact absurd h2 (by decide)
  · split at h
    · injection h with h1 h2
      exact absurd h2 (err_prefix_ne (by decide))
    · rename_i p heq
      split at h
      · injection h with h1 h2
        exact absurd h2 (err_prefix_ne (by decide))
      · rename_i fs1 hrm
        have hfs1 := osRemove_ok hrm
        have hWD1 : WORKING_DIRECTORY ∈ fs1.dirs := by rw [hfs1]; exact hWD
        have hLd1 : LOG_FILE_PATH ∉ fs1.dirs := by rw [hfs1]; exact hLd
        split at h
        · rename_i fs2 u hl
          injection h with h1 h2
          subst h1
          rcases Nat.lt_or_ge fuel 2 with hf | hf
          · obtain ⟨e, he⟩ := log_operation_small fuel fs1 "delete" f (by omega)
            rw [hl] at he
            simp at he
          · obtain ⟨fs'', c', heq2, hlk, hinf, hconf⟩ :=
              log_operation_logs fuel fs1 "delete" f hWD1 hLd1 hf
            rw [heq2] at hl
            injection hl with hl1 hl2
            subst hl1
            refine ⟨p, c', heq, hlk, hinf, ?_, ?_⟩
            · rw [hconf.1, hfs1]
            · intro hpne c hc
              have hc1 : lookupFile fs1.files LOG_FILE_PATH = some c := by
                rw [hfs1]
                exact (lookupFile_removeFile_ne _ _ _
                  (fun he => hpne he.symm)).trans hc
              exact hconf.2.2 c hc1
        · rename_i fs2 e hl
          injection h with h1 h2
          exact absurd h2 (err_prefix_ne (by decide))

/-- When the duplicate check fires, `delete_file` returns immediately
with the state unchanged. -/
theorem delete_file_dup {restricted : Bool} {fuel : Nat} {fs : FS} {f : String}
    (hck : check_duplicate_operation restricted fs "delete" f = true) :
    delete_file restricted fuel fs f
      = (fs, "Error: File has already been deleted.") := by
  unfold delete_file
  rw [hck, if_pos rfl]

/-- When the duplicate check fires, `write_to_file` returns immediately
with the state unchanged. -/
theorem write_to_file_dup {restricted : Bool} {fuel : Nat} {fs : FS}
    {f text : String}
    (hck : check_duplicate_operation restricted fs "write" f = true) :
    write_to_file restricted fuel fs f text
      = (fs, "Error: File has already been updated.") := by
  unfold write_to_file
  rw [hck, if_pos rfl]

/-- C8.  A second `delete(f)` after a first successful `delete(f)`
returns the duplicate-operation failure and changes nothing: the
returned state is exactly the state before the second call (the
duplicate check fires before any filesystem access). -/
theorem C8_delete_after_delete (fuel fuel₂ : Nat) (fs : FS) (f : String)
    (hWD : WORKING_DIRECTORY ∈ fs.dirs)
    (hLd : LOG_FILE_PATH ∉ fs.dirs)
    (hdel : (delete_file true fuel fs f).2 = "File deleted successfully.") :
    delete_file true fuel₂ (delete_file true fuel fs f).1 f
      = ((delete_file true fuel fs f).1,
         "Error: File has already been deleted.") := by
  have hpair : delete_file true fuel fs f
      = ((delete_file true fuel fs f).1, "File deleted successfully.") := by
    rw [← hdel]
  obtain ⟨p, c', hsj, hlk, hinf, hdirs, hext⟩ := delete_success_inv hWD hLd hpair
  have hck : check_duplicate_operation true (delete_file true fuel fs f).1
      "delete" f = true := by
    rw [check_dup_eq _ _ _ _ hlk]
    exact decide_eq_true hinf
  exact delete_file_dup hck

/-- C3, counterexample.  The claim quantifies over *every* filename:
but a first `write("..", text)` with an empty log does not succeed — it
is rejected by the path guard before anything is written. -/
theorem C3_counterexample :
    check_duplicate_operation true ⟨[], ["/", "/auto_gpt_workspace"]⟩
        "write" ".." = false
      ∧ (write_to_file true 5 ⟨[], ["/", "/auto_gpt_workspace"]⟩ ".." "x").2
          ≠ "File written to successfully."
      ∧ (write_to_file true 5 ⟨[], ["/", "/auto_gpt_workspace"]⟩ ".." "x").2
          = "Error: " ++ escapeMsg := by
  decide

/-- C3, amended.  For every filename that resolves inside the working
directory to a non-directory path other than the log file, whose
missing parent directories are creatable (if the parent path exists it
is a directory; otherwise no ancestor of the parent exists as a regular
file, and neither the target nor the log path lies on the ancestor
chain that `makedirs` creates), with no prior `"write"` log entry and
recursion budget at least 2: the first `write` succeeds, creating the
missing parent directories as needed; an immediately following `write`
returns the duplicate-operation failure with the state unchanged; and
after an intervening successful `delete` of the same file a further
`write` still returns the duplicate-operation failure with the state
unchanged — a file can be successfully written at most once per
process lifetime under one log. -/
theorem C3_write_once_amended (fuel fuel₂ fuel₃ fuel₄ : Nat) (fs : FS)
    (f text text₂ text₃ p : String)
    (hWD : WORKING_DIRECTORY ∈ fs.dirs)
    (hLd : LOG_FILE_PATH ∉ fs.dirs)
    (hp : safe_join true WORKING_DIRECTORY [f] = .ok p)
    (hpd : p ∉ fs.dirs)
    (hpl : p ≠ LOG_FILE_PATH)
    (hprep : pathExists fs (dirname p) = true → dirname p ∈ fs.dirs)
    (hchain : pathExists fs (dirname p) = false →
      (∀ q ∈ ancestors (dirname p).data.length (dirname p),
          lookupFile fs.files q = none)
      ∧ p ∉ ancestors (dirname p).data.length (dirname p)
      ∧ LOG_FILE_PATH ∉ ancestors (dirname p).data.length (dirname p))
    (hfuel : 2 ≤ fuel)
    (hnodup : check_duplicate_operation true fs "write" f = false)
    (hdel : (delete_file true fuel₃ (write_to_file true fuel fs f text).1 f).2
        = "File deleted successfully.") :
    (write_to_file true fuel fs f text).2 = "File written to successfully."
    ∧ write_to_file true fuel₂ (write_to_file true fuel fs f text).1 f text₂
        = ((write_to_file true fuel fs f text).1,
           "Error: File has already been updated.")
    ∧ write_to_file true fuel₄
          (delete_file true fuel₃ (write_to_file true fuel fs f text).1 f).1
          f text₃
        = ((delete_file true fuel₃ (write_to_file true fuel fs f text).1 f).1,
           "Error: File has already been updated.") := by
  obtain ⟨fs₁, hmk, hparent₁, hpd₁, hLd₁, hWD₁⟩ : ∃ fs₁,
      (if pathExists fs (dirname p) = true then Except.ok fs
       else makedirs fs (dirname p) : Except PyError FS) = .ok fs₁
      ∧ dirname p ∈ fs₁.dirs ∧ p ∉ fs₁.dirs ∧ LOG_FILE_PATH ∉ fs₁.dirs
      ∧ WORKING_DIRECTORY ∈ fs₁.dirs := by
    cases hpe : pathExists fs (dirname p) with
    | true => exact ⟨fs, rfl, hprep hpe, hpd, hLd, hWD⟩
    | false =>
      obtain ⟨hnof, hpch, hLch⟩ := hchain hpe
      have hdnd : dirname p ∉ fs.dirs := (pathExists_false hpe).2
      have hany : (ancestors (dirname p).data.length (dirname p)).any
          (fun q => (lookupFile fs.files q).isSome) = false := by
        rw [List.any_eq_false]
        intro q hq
        rw [hnof q hq]
        simp
      refine ⟨{ fs with
          dirs := ancestors (dirname p).data.length (dirname p) ++ fs.dirs },
        ?_, ?_, ?_, ?_, ?_⟩
      · rw [if_neg Bool.false_ne_true]
        unfold makedirs
        dsimp only
        rw [if_neg hdnd, if_neg (by rw [hany]; exact Bool.false_ne_true)]
      · exact List.mem_append_left _ (mem_ancestors_self _ _)
      · intro hin
        rcases List.mem_append.mp hin with hin | hin
        · exact hpch hin
        · exact hpd hin
      · intro hin
        rcases List.mem_append.mp hin with hin | hin
        · exact hLch hin
        · exact hLd hin
      · exact List.mem_append_right _ hWD
  have how : openWrite fs₁ p text
      = .ok { fs₁ with files := setFile fs₁.files p text } := by
    unfold openWrite
    rw [if_neg hpd₁, if_pos hparent₁]
  obtain ⟨fs3, c', hlogeq, hlk3, hinf3, hconf3⟩ :=
    log_operation_logs fuel { fs₁ with files := setFile fs₁.files p text }
      "write" f hWD₁ hLd₁ hfuel
  have hW : write_to_file true fuel fs f text
      = (fs3, "File written to successfully.") := by
    unfold write_to_file
    simp only [hnodup, Bool.false_eq_true, if_false]
    rw [hp]
    dsimp only
    rw [hmk]
    dsimp only
    rw [how]
    dsimp only
    rw [hlogeq]
  have hck3 : check_duplicate_operation true fs3 "write" f = true := by
    rw [check_dup_eq fs3 "write" f c' hlk3]
    exact decide_eq_true hinf3
  refine ⟨by rw [hW], by rw [hW]; exact write_to_file_dup hck3, ?_⟩
  rw [hW] at hdel ⊢
  have hWD3 : WORKING_DIRECTORY ∈ fs3.dirs := by rw [hconf3.1]; exact hWD₁
  have hLd3 : LOG_FILE_PATH ∉ fs3.dirs := by rw [hconf3.1]; exact hLd₁
  have hpairD : delete_file true fuel₃ fs3 f
      = ((delete_file true fuel₃ fs3 f).1, "File deleted successfully.") := by
    rw [← hdel]
  obtain ⟨p₂, c'', hsj₂, hlk₂, hinf₂, hdirs₂, hext₂⟩ :=
    delete_success_inv hWD3 hLd3 hpairD
  have hp₂ : p₂ = p := by
    rw [hp] at hsj₂
    injection hsj₂ with h
    exact h.symm
  obtain ⟨s, hs⟩ := hext₂ (by rw [hp₂]; exact hpl) c' hlk3
  have hinfD : ("write" ++ ": " ++ f ++ "\n").data <:+: (c' ++ s).data := by
    refine hinf3.trans ⟨[], s.data, ?_⟩
    simp [String.data_append]
  have hckD : check_duplicate_operation true (delete_file true fuel₃ fs3 f).1
      "write" f = true := by
    rw [check_dup_eq _ "write" f (c' ++ s) hs]
    exact decide_eq_true hinfD
  exact write_to_file_dup hckD

/-- C3, witness: a concrete write / duplicate write / delete /
duplicate write sequence on `sub/a.txt` from an empty workspace — the
parent directory `sub` is absent before the first write and is created
by it. -/
theorem C3_witness :
    (write_to_file true 5 ⟨[], ["/", "/auto_gpt_workspace"]⟩
          "sub/a.txt" "x").2
        = "File written to successfully."
      ∧ write_to_file true 5
            (write_to_file true 5 ⟨[], ["/", "/auto_gpt_workspace"]⟩
              "sub/a.txt" "x").1 "sub/a.txt" "y"
          = ((write_to_file true 5 ⟨[], ["/", "/auto_gpt_workspace"]⟩
              "sub/a.txt" "x").1, "Error: File has already been updated.")
      ∧ write_to_file true 5
            (delete_file true 5
              (write_to_file true 5 ⟨[], ["/", "/auto_gpt_workspace"]⟩
                "sub/a.txt" "x").1 "sub/a.txt").1 "sub/a.txt" "z"
          = ((delete_file true 5
              (write_to_file true 5 ⟨[], ["/", "/auto_gpt_workspace"]⟩
                "sub/a.txt" "x").1 "sub/a.txt").1,
             "Error: File has already been updated.") :=
  C3_write_once_amended 5 5 5 5 ⟨[], ["/", "/auto_gpt_workspace"]⟩
    "sub/a.txt" "x" "y" "z" "/auto_gpt_workspace/sub/a.txt"
    (by decide) (by decide) (by decide) (by decide) (by decide)
    (by decide) (by decide) (by omega) (by decide) (by decide)

/-- Inversion of a successful `write_to_file`: the resolved file holds
exactly the written text (the logging that follows only touches the log
file). -/
theorem write_success_inv {fuel : Nat} {fs fs' : FS} {f text p : String}
    (hp : safe_join true WORKING_DIRECTORY [f] = .ok p)
    (hne : p ≠ LOG_FILE_PATH)
    (h : write_to_file true fuel fs f text
        = (fs', "File written to successfully.")) :
    lookupFile fs'.files p = some text := by
  unfold write_to_file at h
  split at h
  · injection h with h1 h2
    exact absurd h2 (by decide)
  · split at h
    · injection h with h1 h2
      exact absurd h2 (err_prefix_ne (by decide))
    · rename_i p' heq
      rw [hp] at heq
      injection heq with heq
      subst heq
      split at h
      · injection h with h1 h2
        exact absurd h2 (err_prefix_ne (by decide))
      · rename_i fs1 hmk
        split at h
        · injection h with h1 h2
          exact absurd h2 (err_prefix_ne (by decide))
        · rename_i fs2 how
          obtain ⟨hfs2, -, -⟩ := openWrite_ok how
          split at h
          · rename_i fs3 u hl
            injection h with h1 h2
            subst h1
            have hconf := (confined_pair fuel).1 fs2 "write" f
            rw [hl] at hconf
            rw [hconf.2.1 p hne, hfs2]
            exact lookupFile_setFile_self _ _ _
          · injection h with h1 h2
            exact absurd h2 (err_prefix_ne (by decide))

/-- C4, counterexample.  The claim quantifies over every filename, but
for `f = "file_logger.txt"` (the operation log itself) a successful
`write(f, text)` is followed by the logger appending entries to the
very same file, so `read(f)` does not return `text`. -/
theorem C4_counterexample :
    (write_to_file true 4 ⟨[], ["/", "/auto_gpt_workspace"]⟩
        "file_logger.txt" "hello").2 = "File written to successfully."
      ∧ read_file true (write_to_file true 4 ⟨[], ["/", "/auto_gpt_workspace"]⟩
          "file_logger.txt" "hello").1 "file_logger.txt" ≠ "hello" := by
  decide

/-- C4, amended.  For every filename resolving to a path other than the
log file: if `write(f, text)` returns success, then `read(f)` on the
resulting state returns exactly `text`. -/
theorem C4_round_trip_amended (fuel : Nat) (fs : FS) (f text p : String)
    (hp : safe_join true WORKING_DIRECTORY [f] = .ok p)
    (hne : p ≠ LOG_FILE_PATH)
    (hw : (write_to_file true fuel fs f text).2
        = "File written to successfully.") :
    read_file true (write_to_file true fuel fs f text).1 f = text := by
  have hpair : write_to_file true fuel fs f text
      = ((write_to_file true fuel fs f text).1,
         "File written to successfully.") := by
    rw [← hw]
  have hlk := write_success_inv hp hne hpair
  unfold read_file
  rw [hp]
  dsimp only
  unfold openRead
  rw [hlk]

/-- C4, witness: writing then reading `b.txt` from an empty workspace
returns the written text. -/
theorem C4_witness :
    read_file true (write_to_file true 5 ⟨[], ["/", "/auto_gpt_workspace"]⟩
        "b.txt" "hello").1 "b.txt" = "hello" :=
  C4_round_trip_amended 5 ⟨[], ["/", "/auto_gpt_workspace"]⟩ "b.txt" "hello"
    "/auto_gpt_workspace/b.txt" (by decide) (by decide) (by decide)

/-! ## `search_files` (directory walk) -/

/-- The immediate subdirectories of `d` in the modelled filesystem:
directories whose `dirname` is `d` (excluding `d` itself, which guards
the root `/` whose dirname is itself). -/
def childDirs (fs : FS) (d : String) : List String :=
  fs.dirs.filter (fun q => decide (dirname q = d) && decide (q ≠ d))

/-- The names of the files directly inside `d`. -/
def childFiles (fs : FS) (d : String) : List String :=
  ((fs.files.map Prod.fst).filter (fun q => decide (dirname q = d))).map basename

/-- `os.walk(top)`, top-down: each yielded pair is (root, filenames).
Walking a non-existent directory yields nothing (as `os.walk` does when
`scandir` fails and `onerror` is None).  `fuel` bounds the recursion
depth; the wrapper supplies more than the number of directories, which
bounds every strictly-descending chain. -/
def walkAux (fs : FS) : Nat → String → List (String × List String)
  | 0, _ => []
  | fuel + 1, top =>
    if top ∈ fs.dirs then
      (top, childFiles fs top) ::
        (childDirs fs top).flatMap (fun d => walkAux fs fuel d)
    else []

/-- `os.walk`. -/
def osWalk (fs : FS) (top : String) : List (String × List String) :=
  walkAux fs (fs.dirs.length + 1) top

/-- `os.path.abspath` with the process cwd at `/`. -/
def abspath (p : String) : String := normpath (joinOne "/" p)

/-- `os.path.relpath(path, start)` on POSIX (cwd at `/`). -/
def relpath (path start : String) : String :=
  let start_list := (splitC (abspath start).data).filter (fun c => c ≠ [])
  let path_list := (splitC (abspath path).data).filter (fun c => c ≠ [])
  let i := (commonPrefixC start_list path_list).length
  let rel_list := List.replicate (start_list.length - i) ['.', '.']
      ++ path_list.drop i
  if rel_list = [] then "." else String.mk (icC rel_list)

/-- `search_files(directory)`.  The source wraps nothing in
`try`/`except`, so the `ValueError` raised by `safe_join` propagates to
the caller (modelled as `Except.error`). -/
def search_files (restricted : Bool) (fs : FS) (directory : String) :
    Except String (List String) :=
  match (if directory = "" ∨ directory = "/"
         then Except.ok WORKING_DIRECTORY
         else safe_join restricted WORKING_DIRECTORY [directory]) with
  | .error msg => .error msg
  | .ok search_directory =>
    .ok ((osWalk fs search_directory).flatMap (fun pr =>
      (pr.2.filter (fun file => ! startsW file ".")).map
        (fun file => relpath (joinOne pr.1 file) WORKING_DIRECTORY)))

/-- C10, counterexample.  `search_files` is not wrapped in
`try`/`except`: on a directory argument that escapes the root, the
`ValueError` raised by `safe_join` propagates to the caller instead of
being returned as an `"Error: "` string. -/
theorem C10_counterexample :
    search_files true ⟨[], ["/", "/auto_gpt_workspace"]⟩ ".."
      = .error escapeMsg := by
  decide

/-- C10, amended.  `read`, `write`, `append` and `delete` catch every
failure inside the operation and return it as a human-readable string
prefixed `"Error: "` (or return their success message / the file
content); `search` alone propagates the path-escape exception raised by
`safe_join` (its directory walk swallows I/O errors). -/
theorem C10_errors_flattened_amended (restricted : Bool) (fuel : Nat)
    (fs : FS) (f text : String) :
    ((write_to_file restricted fuel fs f text).2 = "File written to successfully."
      ∨ ∃ t, (write_to_file restricted fuel fs f text).2 = "Error: " ++ t)
    ∧ ((delete_file restricted fuel fs f).2 = "File deleted successfully."
      ∨ ∃ t, (delete_file restricted fuel fs f).2 = "Error: " ++ t)
    ∧ (∃ fs' m, append_to_file restricted (fuel + 1) fs f text = (fs', Except.ok m)
      ∧ (m = "Text appended successfully." ∨ ∃ t, m = "Error: " ++ t))
    ∧ ((∃ p c, safe_join restricted WORKING_DIRECTORY [f] = .ok p
        ∧ openRead fs p = .ok c ∧ read_file restricted fs f = c)
      ∨ ∃ t, read_file restricted fs f = "Error: " ++ t) := by
  refine ⟨?_, ?_, append_to_file_ok restricted fuel fs f text, ?_⟩
  · unfold write_to_file
    split
    · exact Or.inr ⟨"File has already been updated.", rfl⟩
    · rcases hsj : safe_join restricted WORKING_DIRECTORY [f] with msg | p
      · exact Or.inr ⟨msg, rfl⟩
      · dsimp only
        rcases hmk : (if pathExists fs (dirname p) = true then Except.ok fs
            else makedirs fs (dirname p) : Except PyError FS) with e | fs1
        · exact Or.inr ⟨pyErrStr e, rfl⟩
        · dsimp only
          rcases how : openWrite fs1 p text with e | fs2
          · exact Or.inr ⟨pyErrStr e, rfl⟩
          · dsimp only
            rcases hl : log_operation restricted fuel fs2 "write" f with ⟨fs3, r⟩
            cases r with
            | ok u => exact Or.inl rfl
            | error e => exact Or.inr ⟨pyErrStr e, rfl⟩
  · unfold delete_file
    split
    · exact Or.inr ⟨"File has already been deleted.", rfl⟩
    · rcases hsj : safe_join restricted WORKING_DIRECTORY [f] with msg | p
      · exact Or.inr ⟨msg, rfl⟩
      · dsimp only
        rcases hrm : osRemove fs p with e | fs1
        · exact Or.inr ⟨pyErrStr e, rfl⟩
        · dsimp only
          rcases hl : log_operation restricted fuel fs1 "delete" f with ⟨fs2, r⟩
          cases r with
          | ok u => exact Or.inl rfl
          | error e => exact Or.inr ⟨pyErrStr e, rfl⟩
  · unfold read_file
    rcases hsj : safe_join restricted WORKING_DIRECTORY [f] with msg | p
    · exact Or.inr ⟨msg, rfl⟩
    · dsimp only
      rcases hrd : openRead fs p with e | c
      · exact Or.inr ⟨pyErrStr e, rfl⟩
      · exact Or.inl ⟨p, c, rfl, hrd, rfl⟩

/-! ## Splitting and joining path components -/

theorem splitC_ne_nil : ∀ l : List Char, splitC l ≠ []
  | [] => by simp [splitC]
  | a :: rest => by
    have ih := splitC_ne_nil rest
    simp only [splitC]
    rcases hs : splitC rest with - | ⟨h, t⟩
    · exact absurd hs ih
    · by_cases ha : a = '/' <;> simp [ha]

theorem icC_splitC : ∀ l : List Char, icC (splitC l) = l
  | [] => rfl
  | a :: rest => by
    have ih := icC_splitC rest
    simp only [splitC]
    rcases hs : splitC rest with - | ⟨h, t⟩
    · exact absurd hs (splitC_ne_nil rest)
    · rw [hs] at ih
      by_cases ha : a = '/'
      · subst ha
        simp only [if_pos rfl]
        show '/' :: icC (h :: t) = '/' :: rest
        rw [ih]
      · simp only [if_neg ha]
        cases t with
        | nil =>
          show a :: h = a :: rest
          rw [show icC [h] = h from rfl] at ih
          rw [ih]
        | cons y t' =>
          show (a :: h) ++ '/' :: icC (y :: t') = a :: rest
          rw [List.cons_append, ← show icC (h :: y :: t') = h ++ '/' :: icC (y :: t')
            from rfl, ih]

theorem splitC_noslash : ∀ c : List Char, '/' ∉ c → splitC c = [c]
  | [], _ => rfl
  | a :: c', h => by
    have ha : a ≠ '/' := fun he => h (he ▸ List.mem_cons_self a c')
    have ih := splitC_noslash c' (fun hm => h (List.mem_cons_of_mem a hm))
    simp only [splitC, ih, if_neg ha]

theorem splitC_append : ∀ (c l : List Char) (h : List Char)
    (t : List (List Char)),
    '/' ∉ c → splitC l = h :: t → splitC (c ++ l) = (c ++ h) :: t
  | [], l, h, t, _, hl => by simpa using hl
  | a :: c', l, h, t, hmem, hl => by
    have ha : a ≠ '/' := fun he => hmem (he ▸ List.mem_cons_self a c')
    have ih := splitC_append c' l h t (fun hm => hmem (List.mem_cons_of_mem a hm)) hl
    simp only [List.cons_append, splitC]
    rw [show List.append c' l = c' ++ l from rfl, ih]
    simp [ha]

theorem splitC_slash_cons (l : List Char) : splitC ('/' :: l) = [] :: splitC l := by
  rcases hs : splitC l with - | ⟨h, t⟩
  · exact absurd hs (splitC_ne_nil l)
  · simp [splitC, hs]

theorem icC_append_last : ∀ (xs : List (List Char)) (lc : List Char), xs ≠ [] →
    icC (xs ++ [lc]) = icC xs ++ '/' :: lc
  | [], _, h => absurd rfl h
  | [x], lc, _ => rfl
  | x :: y :: xs', lc, _ => by
    have ih := icC_append_last (y :: xs') lc (by simp)
    show x ++ '/' :: icC ((y :: xs') ++ [lc]) = (x ++ '/' :: icC (y :: xs')) ++ '/' :: lc
    rw [ih, List.append_assoc, List.cons_append]

theorem splitC_icC : ∀ comps : List (List Char),
    (∀ c ∈ comps, '/' ∉ c) → comps ≠ [] → splitC (icC comps) = comps
  | [], _, h => absurd rfl h
  | [c], hns, _ => splitC_noslash c (hns c (by simp))
  | c :: y :: rest, hns, _ => by
    have ih := splitC_icC (y :: rest)
      (fun d hd => hns d (List.mem_cons_of_mem c hd)) (by simp)
    show splitC (c ++ '/' :: icC (y :: rest)) = c :: y :: rest
    have h5 : splitC ('/' :: icC (y :: rest)) = [] :: y :: rest := by
      rw [splitC_slash_cons, ih]
    rw [splitC_append c ('/' :: icC (y :: rest)) [] (y :: rest)
      (hns c (by simp)) h5, List.append_nil]

theorem commonPrefixC_append_self {α : Type} [DecidableEq α] :
    ∀ l m : List α, commonPrefixC l (l ++ m) = l
  | [], m => by cases m <;> simp [commonPrefixC]
  | a :: l', m => by
    simp [List.cons_append, commonPrefixC, commonPrefixC_append_self l' m]

theorem takeWhile_append_stop {α : Type} (p : α → Bool) :
    ∀ (l₁ : List α) (x : α) (l₂ : List α), (∀ a ∈ l₁, p a = true) → p x = false →
      (l₁ ++ x :: l₂).takeWhile p = l₁
  | [], x, l₂, _, hx => by simp [List.takeWhile_cons, hx]
  | a :: l₁', x, l₂, hall, hx => by
    have ha := hall a (by simp)
    have ih := takeWhile_append_stop p l₁' x l₂
      (fun b hb => hall b (by simp [hb])) hx
    simp [List.takeWhile_cons, ha, ih]

theorem normLoop_regular (i : Nat) :
    ∀ (comps : List (List Char)) (revAcc : List (List Char)),
      (∀ c ∈ comps, c ≠ [] ∧ c ≠ ['.'] ∧ c ≠ ['.', '.']) →
      normLoop i revAcc comps = revAcc.reverse ++ comps
  | [], revAcc, _ => by simp [normLoop]
  | c :: rest, revAcc, hall => by
    obtain ⟨h1, h2, h3⟩ := hall c (by simp)
    have ih := normLoop_regular i rest (c :: revAcc)
      (fun d hd => hall d (List.mem_cons_of_mem c hd))
    simp only [normLoop]
    rw [if_neg (by simp [h1, h2]), if_pos (Or.inl h3), ih]
    simp [List.reverse_cons, List.append_assoc]

/-! ## Well-formed absolute paths -/

/-- A valid path component: nonempty, no slash, not `.` or `..`. -/
def validCompB (c : List Char) : Bool :=
  decide (c ≠ [] ∧ '/' ∉ c ∧ c ≠ ['.'] ∧ c ≠ ['.', '.'])

/-- A well-formed absolute path: the root `/`, or `/` followed by
slash-separated valid components (the shape of every path produced by
`safe_join` under restriction). -/
def validAbs (p : String) : Bool :=
  decide (p = "/") ||
    (match p.data with
     | '/' :: rest => (splitC rest).all validCompB
     | _ => false)

/-- The absolute path with the given components. -/
def mkP (comps : List (List Char)) : String := String.mk ('/' :: icC comps)

theorem validCompB_spec {c : List Char} (h : validCompB c = true) :
    c ≠ [] ∧ '/' ∉ c ∧ c ≠ ['.'] ∧ c ≠ ['.', '.'] := by
  simpa [validCompB] using h

theorem icC_head : ∀ comps : List (List Char), comps ≠ [] →
    (∀ c ∈ comps, validCompB c = true) →
    ∃ z zr, icC comps = z :: zr ∧ z ≠ '/'
  | [], h, _ => absurd rfl h
  | c :: rest, _, hval => by
    obtain ⟨h1, h2, -, -⟩ := validCompB_spec (hval c (by simp))
    rcases hc : c with - | ⟨z, zt⟩
    · exact absurd hc h1
    · have hz : z ≠ '/' := by
        intro he
        exact h2 (by rw [hc, he]; exact List.mem_cons_self _ _)
      cases rest with
      | nil => exact ⟨z, zt, rfl, hz⟩
      | cons y rs => exact ⟨z, zt ++ '/' :: icC (y :: rs), rfl, hz⟩

theorem icC_reverse_head (comps : List (List Char)) (hne : comps ≠ [])
    (hval : ∀ c ∈ comps, validCompB c = true) :
    ∃ z zr, (icC comps).reverse = z :: zr ∧ z ≠ '/' := by
  rcases List.eq_nil_or_concat comps with h | ⟨ys, lc, rfl⟩
  · exact absurd h hne
  · obtain ⟨hl1, hl2, -, -⟩ := validCompB_spec (hval lc (by simp))
    rcases hrev : lc.reverse with - | ⟨z, zt⟩
    · rw [List.reverse_eq_nil_iff] at hrev
      exact absurd hrev hl1
    · have hz : z ≠ '/' := by
        intro he
        have hm : z ∈ lc := by
          rw [← List.mem_reverse, hrev]
          simp
        exact hl2 (he ▸ hm)
      cases ys with
      | nil => exact ⟨z, zt, hrev, hz⟩
      | cons y ys' =>
        refine ⟨z, zt ++ ['/'] ++ (icC (y :: ys')).reverse, ?_, hz⟩
        rw [List.concat_eq_append, icC_append_last (y :: ys') lc (by simp),
          List.reverse_append, List.reverse_cons, hrev]
        simp [List.append_assoc]

theorem validAbs_mkP (comps : List (List Char)) (hne : comps ≠ [])
    (hval : ∀ c ∈ comps, validCompB c = true) :
    validAbs (mkP comps) = true := by
  unfold validAbs mkP
  rw [show (String.mk ('/' :: icC comps)).data = '/' :: icC comps from rfl]
  have hs : splitC (icC comps)
      = comps := splitC_icC comps
    (fun c hc => (validCompB_spec (hval c hc)).2.1) hne
  rw [Bool.or_eq_true]
  right
  show (splitC (icC comps)).all validCompB = true
  rw [hs]
  exact List.all_eq_true.mpr hval

theorem validAbs_cases {d : String} (h : validAbs d = true) :
    d = "/" ∨ ∃ comps, comps ≠ []
      ∧ (∀ c ∈ comps, validCompB c = true) ∧ d = mkP comps := by
  unfold validAbs at h
  rw [Bool.or_eq_true, decide_eq_true_iff] at h
  rcases h with h | h
  · exact Or.inl h
  · right
    split at h
    · rename_i rest heq
      refine ⟨splitC rest, splitC_ne_nil rest,
        fun c hc => List.all_eq_true.mp h c hc, ?_⟩
      apply String.ext
      rw [heq]
      show '/' :: rest = '/' :: icC (splitC rest)
      rw [icC_splitC]
    · simp at h

theorem mkP_ne_root (comps : List (List Char)) (hne : comps ≠ [])
    (hval : ∀ c ∈ comps, validCompB c = true) : mkP comps ≠ "/" := by
  obtain ⟨z, zr, hz, -⟩ := icC_head comps hne hval
  intro he
  have hd := congrArg String.data he
  rw [show (mkP comps).data = '/' :: icC comps from rfl, hz] at hd
  simp at hd

theorem mkP_inj {a b : List (List Char)}
    (hva : ∀ c ∈ a, validCompB c = true) (hvb : ∀ c ∈ b, validCompB c = true)
    (hnea : a ≠ []) (hneb : b ≠ []) (h : mkP a = mkP b) : a = b := by
  have hd := congrArg String.data h
  rw [show (mkP a).data = '/' :: icC a from rfl,
    show (mkP b).data = '/' :: icC b from rfl] at hd
  injection hd with hd0 hd
  have h2 := congrArg splitC hd
  rw [splitC_icC a (fun c hc => (validCompB_spec (hva c hc)).2.1) hnea,
    splitC_icC b (fun c hc => (validCompB_spec (hvb c hc)).2.1) hneb] at h2
  exact h2

/-- C8, witness: a concrete double delete of `a.txt`. -/
theorem C8_witness :
    delete_file true 5 (delete_file true 5
        ⟨[("/auto_gpt_workspace/a.txt", "x")], ["/", "/auto_gpt_workspace"]⟩
        "a.txt").1 "a.txt"
      = ((delete_file true 5
          ⟨[("/auto_gpt_workspace/a.txt", "x")], ["/", "/auto_gpt_workspace"]⟩
          "a.txt").1, "Error: File has already been deleted.") :=
  C8_delete_after_delete 5 5 _ "a.txt" (by decide) (by decide) (by decide)

end FileOps

namespace FileOps

theorem splitPath_valid (xs : List (List Char)) (lc : List Char)
    (hval : ∀ c ∈ xs ++ [lc], validCompB c = true) :
    splitPath (mkP (xs ++ [lc])) = (mkP xs, String.mk lc) := by
  obtain ⟨hlc1, hlc2, -, -⟩ := validCompB_spec (hval lc (by simp))
  have hne : ∀ a ∈ lc.reverse, (fun c => decide (c ≠ '/')) a = true := by
    intro a ha
    simp only [decide_eq_true_iff]
    intro he
    exact hlc2 (he ▸ (List.mem_reverse.mp ha))
  have hslash : (fun c => decide (c ≠ '/')) '/' = false := by simp
  cases xs with
  | nil =>
    have h1 : List.takeWhile (fun c => decide (c ≠ '/')) (lc.reverse ++ '/' :: [])
        = lc.reverse := takeWhile_append_stop _ lc.reverse '/' [] hne hslash
    unfold splitPath
    simp only [show (mkP ([] ++ [lc])).data = '/' :: lc from rfl,
      List.reverse_cons, h1, List.reverse_reverse, List.length_reverse,
      List.length_cons]
    rw [show lc.length + 1 - lc.length = 1 from by omega]
    rw [show List.take 1 ('/' :: lc) = ['/'] from by simp]
    rw [if_neg (by simp)]
    rfl
  | cons y ys =>
    have hvxs : ∀ c ∈ y :: ys, validCompB c = true := fun c hc =>
      hval c (List.mem_append_left _ hc)
    have hic : icC ((y :: ys) ++ [lc]) = icC (y :: ys) ++ '/' :: lc :=
      icC_append_last _ _ (by simp)
    have hdata : (mkP ((y :: ys) ++ [lc])).data
        = ('/' :: icC (y :: ys) ++ ['/']) ++ lc := by
      rw [show (mkP ((y :: ys) ++ [lc])).data = '/' :: icC ((y :: ys) ++ [lc])
        from rfl, hic]
      simp
    have hrev : ((('/' :: icC (y :: ys) ++ ['/']) ++ lc).reverse)
        = lc.reverse ++ '/' :: ((icC (y :: ys)).reverse ++ ['/']) := by
      simp [List.reverse_append, List.append_assoc]
    have h1 : List.takeWhile (fun c => decide (c ≠ '/'))
        (lc.reverse ++ '/' :: ((icC (y :: ys)).reverse ++ ['/']))
        = lc.reverse := takeWhile_append_stop _ lc.reverse '/' _ hne hslash
    obtain ⟨z, zr, hz, hzne⟩ := icC_head (y :: ys) (by simp) hvxs
    obtain ⟨z2, zr2, hz2, hz2ne⟩ := icC_reverse_head (y :: ys) (by simp) hvxs
    have htk : List.take (('/' :: icC (y :: ys) ++ ['/'] ++ lc).length - lc.length)
        ('/' :: icC (y :: ys) ++ ['/'] ++ lc) = '/' :: icC (y :: ys) ++ ['/'] := by
      have hassoc : '/' :: icC (y :: ys) ++ ['/'] ++ lc
          = ('/' :: icC (y :: ys) ++ ['/']) ++ lc := by simp
      rw [hassoc, List.length_append,
        show ('/' :: icC (y :: ys) ++ ['/']).length + lc.length - lc.length
          = ('/' :: icC (y :: ys) ++ ['/']).length from by omega]
      exact List.take_left _ _
    have hcond : ('/' :: icC (y :: ys) ++ ['/']) ≠ []
        ∧ ¬ (('/' :: icC (y :: ys) ++ ['/']).all (fun c => decide (c = '/'))) = true := by
      refine ⟨by simp, ?_⟩
      intro hall
      have hm : z ∈ '/' :: icC (y :: ys) ++ ['/'] := by
        rw [hz]
        simp
      have := List.all_eq_true.mp hall z hm
      simp only [decide_eq_true_iff] at this
      exact hzne this
    have hdrop : List.dropWhile (fun c => decide (c = '/'))
        (('/' :: icC (y :: ys) ++ ['/']).reverse)
        = (icC (y :: ys)).reverse ++ ['/'] := by
      have hr : ('/' :: icC (y :: ys) ++ ['/']).reverse
          = '/' :: ((icC (y :: ys)).reverse ++ ['/']) := by
        simp [List.reverse_append]
      rw [hr]
      rw [List.dropWhile_cons]
      rw [if_pos (by simp)]
      rw [hz2, List.cons_append, List.dropWhile_cons,
        if_neg (by simp [hz2ne]), ← List.cons_append, ← hz2]
    unfold splitPath
    rw [hdata, hrev, h1, List.reverse_reverse]
    dsimp only
    rw [htk, if_pos hcond, hdrop]
    rw [show ((icC (y :: ys)).reverse ++ ['/']).reverse
      = '/' :: icC (y :: ys) from by simp]
    rfl

theorem dirname_valid (xs : List (List Char)) (lc : List Char)
    (hval : ∀ c ∈ xs ++ [lc], validCompB c = true) :
    dirname (mkP (xs ++ [lc])) = mkP xs := by
  unfold dirname
  rw [splitPath_valid xs lc hval]

theorem basename_valid (xs : List (List Char)) (lc : List Char)
    (hval : ∀ c ∈ xs ++ [lc], validCompB c = true) :
    basename (mkP (xs ++ [lc])) = String.mk lc := by
  unfold basename
  rw [splitPath_valid xs lc hval]

theorem normC_valid {p : String} (h : validAbs p = true) :
    normC p.data = p.data := by
  unfold validAbs at h
  rw [Bool.or_eq_true, decide_eq_true_iff] at h
  rcases h with h | h
  · rw [h]
    decide
  · split at h
    · rename_i rest heq
      have hval : ∀ c ∈ splitC rest, validCompB c = true :=
        fun c hc => List.all_eq_true.mp h c hc
      have hrest : icC (splitC rest) = rest := icC_splitC rest
      have hrne : rest ≠ [] := by
        intro he
        subst he
        have := hval [] (by simp [splitC])
        simp [validCompB] at this
      obtain ⟨z, zr, hz, hzslash⟩ := icC_head (splitC rest) (splitC_ne_nil rest) hval
      rw [hrest] at hz
      rw [heq]
      unfold normC
      rw [if_neg (by simp)]
      dsimp only
      have h2' : ¬ (List.take 2 ('/' :: rest) = ['/', '/']
          ∧ List.take 3 ('/' :: rest) ≠ ['/', '/', '/']) := by
        intro hand
        have h2 := hand.1
        rw [hz, show List.take 2 ('/' :: z :: zr) = ['/', z] from rfl] at h2
        simp at h2
        exact hzslash h2
      have ht1 : List.take 1 ('/' :: rest) = ['/'] := by
        rw [hz]
        rfl
      have hsl : (if List.take 1 ('/' :: rest) = ['/'] then
          if List.take 2 ('/' :: rest) = ['/', '/']
            ∧ List.take 3 ('/' :: rest) ≠ ['/', '/', '/'] then 2 else 1
          else 0) = 1 := by
        rw [if_pos ht1, if_neg h2']
      rw [hsl, splitC_slash_cons]
      have hnl : normLoop 1 [] ([] :: splitC rest) = splitC rest := by
        rw [show normLoop 1 [] ([] :: splitC rest)
          = normLoop 1 [] (splitC rest) from by simp [normLoop]]
        rw [normLoop_regular 1 (splitC rest) []
          (fun c hc => by
            obtain ⟨a1, a2, a3, a4⟩ := validCompB_spec (hval c hc)
            exact ⟨a1, a3, a4⟩)]
        simp
      rw [hnl, hrest]
      rw [if_neg (by simp)]
      rfl
    · simp at h



theorem normpath_valid {p : String} (h : validAbs p = true) : normpath p = p := by
  unfold normpath
  rw [normC_valid h]

theorem validAbs_startsW {p : String} (h : validAbs p = true) :
    startsW p "/" = true := by
  unfold validAbs at h
  rw [Bool.or_eq_true, decide_eq_true_iff] at h
  rcases h with h | h
  · rw [h]
    decide
  · split at h
    · rename_i rest heq
      unfold startsW
      rw [heq]
      simp [List.isPrefixOf]
    · simp at h

theorem abspath_valid {p : String} (h : validAbs p = true) : abspath p = p := by
  unfold abspath joinOne
  rw [validAbs_startsW h, if_pos rfl]
  exact normpath_valid h

theorem joinOne_mkP (comps : List (List Char)) (fc : List Char)
    (hne : comps ≠ []) (hval : ∀ c ∈ comps, validCompB c = true)
    (hfc : validCompB fc = true) :
    joinOne (mkP comps) (String.mk fc) = mkP (comps ++ [fc]) := by
  obtain ⟨hf1, hf2, -, -⟩ := validCompB_spec hfc
  have hstart : startsW (String.mk fc) "/" = false := by
    unfold startsW
    rcases hc : fc with - | ⟨a, t⟩
    · rfl
    · have ha : a ≠ '/' := by
        intro he
        exact hf2 (by rw [hc, he]; simp)
      show List.isPrefixOf ['/'] (a :: t) = false
      simp [List.isPrefixOf]
      exact fun he => absurd he.symm ha
  have hend : endsW (mkP comps) "/" = false := by
    obtain ⟨z2, zr2, hz2, hz2ne⟩ := icC_reverse_head comps hne hval
    have hrev : ((mkP comps).data).reverse = z2 :: (zr2 ++ ['/']) := by
      rw [show (mkP comps).data = '/' :: icC comps from rfl, List.reverse_cons,
        hz2]
      rfl
    unfold endsW
    rw [hrev]
    show List.isPrefixOf ['/'] (z2 :: (zr2 ++ ['/'])) = false
    simp [List.isPrefixOf]
    exact fun he => absurd he.symm hz2ne
  have hne2 : mkP comps ≠ "" := by
    intro he
    have := congrArg String.data he
    simp [mkP] at this
  unfold joinOne
  rw [if_neg (by rw [hstart]; simp)]
  rw [if_neg (by
    rintro (h | h)
    · exact hne2 h
    · rw [hend] at h
      simp at h)]
  apply String.ext
  simp [String.data_append, icC_append_last comps fc hne, mkP]

def wdComps : List (List Char) := ["auto_gpt_workspace".data]

theorem wd_eq_mkP : WORKING_DIRECTORY = mkP wdComps := by decide


theorem relpath_wd (y : List (List Char)) (hne : y ≠ [])
    (hval : ∀ c ∈ y, validCompB c = true) :
    relpath (mkP (wdComps ++ y)) WORKING_DIRECTORY = String.mk (icC y) := by
  have hvalall : ∀ c ∈ wdComps ++ y, validCompB c = true := by
    intro c hc
    rcases List.mem_append.mp hc with hc | hc
    · simp only [wdComps, List.mem_singleton] at hc
      subst hc
      decide
    · exact hval c hc
  have hap : abspath (mkP (wdComps ++ y)) = mkP (wdComps ++ y) :=
    abspath_valid (validAbs_mkP _ (by simp [wdComps]) hvalall)
  have haw : abspath WORKING_DIRECTORY = WORKING_DIRECTORY :=
    abspath_valid (by decide)
  have hnos : ∀ c ∈ wdComps ++ y, '/' ∉ c := by
    intro c hc
    exact (validCompB_spec (hvalall c hc)).2.1
  have hsplit : splitC (mkP (wdComps ++ y)).data = [] :: (wdComps ++ y) := by
    rw [show (mkP (wdComps ++ y)).data = '/' :: icC (wdComps ++ y) from rfl,
      splitC_slash_cons, splitC_icC _ hnos (by simp [wdComps])]
  have hsplitw : splitC WORKING_DIRECTORY.data = [] :: wdComps := by decide
  have hfil : ([] :: (wdComps ++ y)).filter (fun c => decide (c ≠ []))
      = wdComps ++ y := by
    rw [List.filter_cons_of_neg (by simp)]
    exact List.filter_eq_self.mpr (fun c hc => by
      simp only [decide_eq_true_iff]
      exact (validCompB_spec (hvalall c hc)).1)
  have hfilw : ([] :: wdComps).filter (fun c => decide (c ≠ [])) = wdComps := by
    decide
  unfold relpath
  rw [hap, haw, hsplit, hsplitw]
  dsimp only
  rw [hfil, hfilw, commonPrefixC_append_self wdComps y, Nat.sub_self,
    List.replicate_zero, List.nil_append, List.drop_left, if_neg hne]


/-- A valid absolute path whose `dirname` is `mkP base` is exactly one valid
component below it. -/
theorem valid_child_ext (q : String) (base : List (List Char))
    (hq : validAbs q = true)
    (hbase : ∀ c ∈ base, validCompB c = true)
    (hbne : base ≠ [])
    (hdd : dirname q = mkP base) :
    ∃ lc, validCompB lc = true ∧ q = mkP (base ++ [lc]) := by
  rcases validAbs_cases hq with hroot | ⟨comps, hcne, hcval, hcd⟩
  · exfalso
    rw [hroot] at hdd
    have hr : dirname "/" = "/" := by decide
    rw [hr] at hdd
    exact mkP_ne_root base hbne hbase hdd.symm
  · rcases List.eq_nil_or_concat comps with h0 | ⟨xs, lc, hxs⟩
    · exact absurd h0 hcne
    · rw [List.concat_eq_append] at hxs
      subst hxs
      rw [hcd, dirname_valid xs lc hcval] at hdd
      by_cases hxe : xs = []
      · exfalso
        subst hxe
        exact mkP_ne_root base hbne hbase (hdd.symm.trans (by decide))
      · have hxsb : xs = base :=
          mkP_inj (fun c hc => hcval c (List.mem_append_left _ hc)) hbase
            hxe hbne hdd
        subst hxsb
        exact ⟨lc, hcval lc (by simp), hcd⟩

/-- Every root yielded by the directory walk started at
`mkP (wdComps ++ ex)` is itself of the form `mkP (wdComps ++ ex2)` with
valid components, and its file list is `childFiles` of that root. -/
theorem walkAux_root_form (fs : FS)
    (hdirs : ∀ d ∈ fs.dirs, validAbs d = true) :
    ∀ (fuel : Nat) (ex : List (List Char)),
      (∀ c ∈ wdComps ++ ex, validCompB c = true) →
      ∀ pr ∈ walkAux fs fuel (mkP (wdComps ++ ex)),
        ∃ ex2, (∀ c ∈ wdComps ++ ex2, validCompB c = true)
          ∧ pr.1 = mkP (wdComps ++ ex2) ∧ pr.2 = childFiles fs pr.1
  | 0, ex, _, pr, hpr => absurd hpr (by simp [walkAux])
  | fuel + 1, ex, hval, pr, hpr => by
    simp only [walkAux] at hpr
    by_cases hmem : mkP (wdComps ++ ex) ∈ fs.dirs
    · rw [if_pos hmem] at hpr
      rcases List.mem_cons.mp hpr with hpr | hpr
      · subst hpr
        exact ⟨ex, hval, rfl, rfl⟩
      · obtain ⟨d, hd, hprd⟩ := List.mem_flatMap.mp hpr
        unfold childDirs at hd
        obtain ⟨hdmem, hdcond⟩ := List.mem_filter.mp hd
        rw [Bool.and_eq_true, decide_eq_true_iff, decide_eq_true_iff] at hdcond
        obtain ⟨lc, hlcval, hdeq⟩ := valid_child_ext d (wdComps ++ ex)
          (hdirs d hdmem) hval (by simp [wdComps]) hdcond.1
        rw [hdeq, List.append_assoc] at hprd
        have hval2 : ∀ c ∈ wdComps ++ (ex ++ [lc]), validCompB c = true := by
          intro c hc
          rcases List.mem_append.mp hc with hc | hc
          · exact hval c (List.mem_append_left _ hc)
          · rcases List.mem_append.mp hc with hc | hc
            · exact hval c (List.mem_append_right _ hc)
            · rw [List.mem_singleton] at hc
              subst hc
              exact hlcval
        exact walkAux_root_form fs hdirs fuel (ex ++ [lc]) hval2 pr hprd
    · rw [if_neg hmem] at hpr
      exact absurd hpr (List.not_mem_nil pr)

/-- C7, counterexample.  A file inside the dot-directory `.hidden` is
returned by `search_files("")` as the path `".hidden/config"`, whose
first path component begins with `'.'`: only the file basename is
filtered, not every path component. -/
theorem C7_counterexample :
    search_files true
        ⟨[("/auto_gpt_workspace/.hidden/config", "x")],
          ["/", "/auto_gpt_workspace", "/auto_gpt_workspace/.hidden"]⟩ ""
      = .ok [".hidden/config"]
    ∧ (".hidden/config" : String).data.take 1 = ['.'] := by
  decide

/-- C7, amended.  On every well-formed filesystem (all recorded paths
absolute, normalized, with no empty, `"."` or `".."` components),
`search_files("")` and `search_files("/")` return identical result
lists, and every returned relative path has a final component (the file
basename) that does not begin with `'.'`; components other than the
last may begin with `'.'`, since only file basenames are filtered. -/
theorem C7_search_amended (restricted : Bool) (fs : FS)
    (hdirs : ∀ d ∈ fs.dirs, validAbs d = true)
    (hfiles : ∀ pr ∈ fs.files, validAbs pr.1 = true) :
    search_files restricted fs "" = search_files restricted fs "/"
    ∧ ∀ l, search_files restricted fs "" = .ok l →
        ∀ r ∈ l, ∃ comps lc, splitC r.data = comps ++ [lc]
          ∧ lc.head? ≠ some '.' := by
  constructor
  · unfold search_files
    rw [if_pos (Or.inl rfl), if_pos (Or.inr rfl)]
  · intro l hl r hr
    unfold search_files at hl
    rw [if_pos (Or.inl rfl)] at hl
    dsimp only at hl
    injection hl with hl
    subst hl
    obtain ⟨pr, hpr, hrin⟩ := List.mem_flatMap.mp hr
    unfold osWalk at hpr
    rw [wd_eq_mkP, show mkP wdComps = mkP (wdComps ++ []) from by
      rw [List.append_nil]] at hpr
    obtain ⟨ex2, hex2val, hpr1, hpr2⟩ := walkAux_root_form fs hdirs
      (fs.dirs.length + 1) [] (by rw [List.append_nil]; decide) pr hpr
    obtain ⟨file, hfil, hrel⟩ := List.mem_map.mp hrin
    obtain ⟨hfmem, hfcond⟩ := List.mem_filter.mp hfil
    rw [hpr2, hpr1] at hfmem
    unfold childFiles at hfmem
    obtain ⟨q, hqf, hqb⟩ := List.mem_map.mp hfmem
    obtain ⟨hqmem, hqd⟩ := List.mem_filter.mp hqf
    rw [decide_eq_true_iff] at hqd
    obtain ⟨pair, hpair, hq1⟩ := List.mem_map.mp hqmem
    obtain ⟨lc, hlcval, hqeq⟩ := valid_child_ext q (wdComps ++ ex2)
      (hq1 ▸ hfiles pair hpair) hex2val (by simp [wdComps]) hqd
    have hqsval : ∀ c ∈ (wdComps ++ ex2) ++ [lc], validCompB c = true := by
      intro c hc
      rcases List.mem_append.mp hc with hc | hc
      · exact hex2val c hc
      · rw [List.mem_singleton] at hc
        subst hc
        exact hlcval
    rw [hqeq, basename_valid _ lc hqsval] at hqb
    subst hqb
    rw [hpr1, joinOne_mkP (wdComps ++ ex2) lc (by simp [wdComps]) hex2val
      hlcval, List.append_assoc] at hrel
    have hyval : ∀ c ∈ ex2 ++ [lc], validCompB c = true := by
      intro c hc
      rcases List.mem_append.mp hc with hc | hc
      · exact hex2val c (List.mem_append_right _ hc)
      · rw [List.mem_singleton] at hc
        subst hc
        exact hlcval
    rw [relpath_wd (ex2 ++ [lc]) (by simp) hyval] at hrel
    subst hrel
    refine ⟨ex2, lc, ?_, ?_⟩
    · show splitC (icC (ex2 ++ [lc])) = ex2 ++ [lc]
      exact splitC_icC _ (fun c hc => (validCompB_spec (hyval c hc)).2.1)
        (by simp)
    · obtain ⟨hlc1, -, -, -⟩ := validCompB_spec hlcval
      rcases hlc : lc with - | ⟨a, t⟩
      · exact absurd hlc hlc1
      · rw [hlc] at hfcond
        simp only [Bool.not_eq_true'] at hfcond
        have hstart : List.isPrefixOf ['.'] (a :: t) = false := hfcond
        intro hh
        rw [List.head?_cons, Option.some_inj] at hh
        subst hh
        simp [List.isPrefixOf] at hstart


/-- C7, witness: a concrete well-formed filesystem with one regular file,
on which both searches agree and the single returned path's components are
characterized with a non-dot final component. -/
theorem C7_witness :
    search_files true
        ⟨[("/auto_gpt_workspace/notes.txt", "x")],
          ["/", "/auto_gpt_workspace"]⟩ ""
      = search_files true
        ⟨[("/auto_gpt_workspace/notes.txt", "x")],
          ["/", "/auto_gpt_workspace"]⟩ "/"
    ∧ ∀ r ∈ ["notes.txt"], ∃ comps lc, splitC r.data = comps ++ [lc]
        ∧ lc.head? ≠ some '.' := by
  have h := C7_search_amended true
    ⟨[("/auto_gpt_workspace/notes.txt", "x")], ["/", "/auto_gpt_workspace"]⟩
    (by decide) (by decide)
  exact ⟨h.1, h.2 ["notes.txt"] (by decide)⟩

end FileOps
